import Mathlib

/-!
Verification of the BVH acceleration core of `rt_rs`.

We shallowly embed the spatial-median-split tree builder
(`src/lib/bvh/aabb.rs`), the flattener (`src/lib/bvh/mod.rs`), the
serialization round-trip (`serde` derives plus the custom
`Bounds::deserialize`), and the WGSL traversal routines
(`src/lib/handlers/bvh.rs` and `src/lib/handlers/basic.rs`).

Machine `f32` arithmetic is modelled by exact rationals (`ℚ`); `u32`
indices by `ℕ`.  The recursive `Aabb::split` is embedded with an
explicit fuel parameter, and its termination is proved as a theorem
stating that sufficient fuel always exists when `eps > 0`.
-/

namespace RtRs

/-- The value of `f32::MAX` (the largest finite single-precision float),
as an exact rational: `(2 - 2⁻²³) · 2¹²⁷ = 2¹²⁸ - 2¹⁰⁴`. -/
def f32Max : ℚ := 2 ^ 128 - 2 ^ 104

/-- A three-component vector of rationals, modelling `[f32; 3]`
(`pub type V3<T> = [T; 3]` in `src/lib/geom/v3.rs`). -/
structure V3 where
  x : ℚ
  y : ℚ
  z : ℚ
  deriving DecidableEq, Repr

namespace V3

/-- `V3Ops::add` from `src/lib/geom/v3.rs`. -/
def add (a b : V3) : V3 := ⟨a.x + b.x, a.y + b.y, a.z + b.z⟩

/-- `V3Ops::sub` from `src/lib/geom/v3.rs`. -/
def sub (a b : V3) : V3 := ⟨a.x - b.x, a.y - b.y, a.z - b.z⟩

/-- `V3Ops::cross` from `src/lib/geom/v3.rs`. -/
def cross (a b : V3) : V3 :=
  ⟨a.y * b.z - a.z * b.y, a.z * b.x - a.x * b.z, a.x * b.y - a.y * b.x⟩

/-- `V3Ops::dot` from `src/lib/geom/v3.rs`. -/
def dot (a b : V3) : ℚ := a.x * b.x + a.y * b.y + a.z * b.z

/-- `V3Ops::scale` from `src/lib/geom/v3.rs`. -/
def scale (a : V3) (s : ℚ) : V3 := ⟨a.x * s, a.y * s, a.z * s⟩

instance : Inhabited V3 := ⟨⟨0, 0, 0⟩⟩

end V3

/-- `geom::Prim`: three vertex indices plus a material id
(`src/lib/geom/mod.rs`). -/
structure Prim where
  ia : ℕ
  ib : ℕ
  ic : ℕ
  material : ℕ
  deriving DecidableEq, Repr

instance : Inhabited Prim := ⟨⟨0, 0, 0, 0⟩⟩

/-- `geom::PrimVertex`: position and normal, with two padding words
(`src/lib/geom/mod.rs`). -/
structure PrimVertex where
  pos : V3
  p0 : ℕ
  normal : V3
  p1 : ℕ
  deriving DecidableEq, Repr

instance : Inhabited PrimVertex := ⟨⟨default, 0, default, 0⟩⟩

/-- `bvh::aabb::Bounds`: `min`/`max` extents with the two GPU-alignment
padding words `_p0`/`_p1` (`src/lib/bvh/aabb.rs`). -/
structure Bounds where
  min : V3
  p0 : ℕ
  max : V3
  p1 : ℕ
  deriving DecidableEq, Repr

instance : Inhabited Bounds := ⟨⟨default, 0, default, 0⟩⟩

/-- The body of `extrema_vertex` in `Bounds::new`: fold one vertex into
the running minima/maxima (`src/lib/bvh/aabb.rs`). -/
def extremaVertex (vertex : V3) (minima maxima : V3) : V3 × V3 :=
  let mn := V3.mk
    (if vertex.x < minima.x then vertex.x else minima.x)
    (if vertex.y < minima.y then vertex.y else minima.y)
    (if vertex.z < minima.z then vertex.z else minima.z)
  let mx := V3.mk
    (if vertex.x > maxima.x then vertex.x else maxima.x)
    (if vertex.y > maxima.y then vertex.y else maxima.y)
    (if vertex.z > maxima.z then vertex.z else maxima.z)
  (mn, mx)

/-- Look up a vertex position: `vertices[i].pos`.  Out-of-range access
(which panics in Rust) is modelled by a default value. -/
def vpos (vertices : List PrimVertex) (i : ℕ) : V3 :=
  (vertices.getD i default).pos

/-- `Bounds::new`: accumulate per-vertex minima/maxima over every vertex
of every primitive, starting from `min = [f32::MAX; 3]`,
`max = [-f32::MAX; 3]` (`src/lib/bvh/aabb.rs`). -/
def Bounds.new (prims : List Prim) (vertices : List PrimVertex) : Bounds :=
  let step := fun (acc : V3 × V3) (p : Prim) =>
    let acc := extremaVertex (vpos vertices p.ia) acc.1 acc.2
    let acc := extremaVertex (vpos vertices p.ib) acc.1 acc.2
    extremaVertex (vpos vertices p.ic) acc.1 acc.2
  let r := prims.foldl step (⟨f32Max, f32Max, f32Max⟩, ⟨-f32Max, -f32Max, -f32Max⟩)
  { min := r.1, p0 := 0, max := r.2, p1 := 0 }

/-- `Bounds::contains`: componentwise inclusive `min <= point <= max`
(`src/lib/bvh/aabb.rs`). -/
def Bounds.contains (b : Bounds) (point : V3) : Bool :=
  decide (point.x ≥ b.min.x) && decide (point.x ≤ b.max.x) &&
  decide (point.y ≥ b.min.y) && decide (point.y ≤ b.max.y) &&
  decide (point.z ≥ b.min.z) && decide (point.z ≤ b.max.z)

/-- `bvh::Aabb`: a tree node with two lazily-set child cells
(`OnceCell<Box<Aabb>>`, modelled as `Option`), bounds, and a list of
primitive indices (`src/lib/bvh/aabb.rs`). -/
inductive Aabb where
  | mk (fst : Option Aabb) (snd : Option Aabb) (bounds : Bounds) (items : List ℕ)
  deriving Repr

namespace Aabb

/-- Field accessor for `fst`. -/
def fst : Aabb → Option Aabb
  | .mk f _ _ _ => f

/-- Field accessor for `snd`. -/
def snd : Aabb → Option Aabb
  | .mk _ s _ _ => s

/-- Field accessor for `bounds`. -/
def bounds : Aabb → Bounds
  | .mk _ _ b _ => b

/-- Field accessor for `items`. -/
def items : Aabb → List ℕ
  | .mk _ _ _ i => i

instance : Inhabited Aabb := ⟨.mk none none default []⟩

end Aabb

/-- The centroid closure inside `Aabb::split`: mean of the three edge
midpoints of a triangle, which is `(a+b+c)/3` up to the exact
computation order (`src/lib/bvh/aabb.rs`). -/
def centroid (prims : List Prim) (vertices : List PrimVertex) (idx : ℕ) : V3 :=
  let tri := prims.getD idx default
  let a := vpos vertices tri.ia
  let b := vpos vertices tri.ib
  let c := vpos vertices tri.ic
  let ab := (a.add b).scale (1/2)
  let bc := (b.add c).scale (1/2)
  let ca := (c.add a).scale (1/2)
  ((ab.add bc).add ca).scale (1/3)

/-- The axis-selection prologue of `Aabb::split`
(`src/lib/bvh/aabb.rs`, lines 162–193): choose the longest axis with
priority X, Y, Z; return `none` when the chosen extent is below
`eps * 0.5` (the early `return` that keeps the node a leaf), otherwise
the two candidate child boxes, split at the axis midpoint. -/
def splitBoxes (eps : ℚ) (b : Bounds) : Option (Bounds × Bounds) :=
  let d := b.max.sub b.min
  if d.x ≥ d.y ∧ d.x ≥ d.z then
    if d.x < eps * (1/2) then none
    else
      let mid := b.min.x + d.x * (1/2)
      some ({ b with max.x := mid }, { b with min.x := mid })
  else if d.y ≥ d.z ∧ d.y ≥ d.x then
    if d.y < eps * (1/2) then none
    else
      let mid := b.min.y + d.y * (1/2)
      some ({ b with max.y := mid }, { b with min.y := mid })
  else
    if d.z < eps * (1/2) then none
    else
      let mid := b.min.z + d.z * (1/2)
      some ({ b with max.z := mid }, { b with min.z := mid })

/-- `Aabb::split` (`src/lib/bvh/aabb.rs`, lines 150–247), embedded with
an explicit fuel parameter bounding the recursion depth; `none` means
the fuel ran out.  Each recursive call of the Rust function consumes one
unit: the degenerate-split retry (collapse to the non-empty candidate
box) and the two child recursions. -/
def splitFuel (eps : ℚ) (prims : List Prim) (vertices : List PrimVertex) :
    ℕ → Aabb → Option Aabb
  | 0, _ => none
  | fuel+1, a =>
    if a.items.length ≤ 2 then some a
    else
      match splitBoxes eps a.bounds with
      | none => some a
      | some (fstB, sndB) =>
        let parts := a.items.partition
          (fun idx => fstB.contains (centroid prims vertices idx))
        if parts.1.isEmpty then
          splitFuel eps prims vertices fuel (.mk a.fst a.snd sndB a.items)
        else if parts.2.isEmpty then
          splitFuel eps prims vertices fuel (.mk a.fst a.snd fstB a.items)
        else
          let fstB' := Bounds.new (parts.1.map (prims.getD · default)) vertices
          let sndB' := Bounds.new (parts.2.map (prims.getD · default)) vertices
          match splitFuel eps prims vertices fuel (.mk none none fstB' parts.1),
                splitFuel eps prims vertices fuel (.mk none none sndB' parts.2) with
          | some fstC, some sndC => some (.mk (some fstC) (some sndC) a.bounds [])
          | _, _ => none

/-- `scene::Scene`, restricted to the fields the BVH core consumes
(`src/lib/scene/mod.rs`). -/
inductive Scene where
  | unloaded
  | active (prims : List Prim) (vertices : List PrimVertex)

/-- `Aabb::from_scene_unloaded` (`src/lib/bvh/aabb.rs`, lines 249–256):
the placeholder single node over the sentinel box, holding item `0`. -/
def fromSceneUnloaded : Aabb := .mk none none (Bounds.new [] []) [0]

/-- The root node built by `Aabb::from_scene` for an active scene,
before `split` runs: the box of the whole set and all indices. -/
def rootAabb (prims : List Prim) (vertices : List PrimVertex) : Aabb :=
  .mk none none (Bounds.new prims vertices) (List.range prims.length)

/-- `Aabb::from_scene` (`src/lib/bvh/aabb.rs`, lines 258–278), with
fuel for the `split` call. -/
def fromSceneFuel (fuel : ℕ) (eps : ℚ) : Scene → Option Aabb
  | .unloaded => some fromSceneUnloaded
  | .active prims vertices =>
      splitFuel eps prims vertices fuel (rootAabb prims vertices)

/-- `bvh::AabbUniform`: a flat node record
(`src/lib/bvh/mod.rs`). -/
structure AabbUniform where
  fst : ℕ
  snd : ℕ
  item_idx : ℕ
  item_count : ℕ
  bounds : Bounds
  deriving DecidableEq, Repr

instance : Inhabited AabbUniform := ⟨⟨0, 0, 0, 0, default⟩⟩

/-- `bvh::BvhData`: the two flat arrays (`src/lib/bvh/mod.rs`). -/
structure BvhData where
  uniforms : List AabbUniform
  indices : List ℕ
  deriving DecidableEq, Repr

instance : Inhabited BvhData := ⟨⟨[], []⟩⟩

/-- `into_aabb_uniform` (`src/lib/bvh/mod.rs`, lines 34–59, identical
in `src/lib/handlers/bvh/mod.rs`, lines 346–371): push this node's
record (children zeroed), append its item list, then recurse into each
present child and write the returned child id back into this node's
record.  Returns the updated data together with this node's id. -/
def intoAabbUniform : Aabb → BvhData → BvhData × ℕ
  | .mk f s b itms, data =>
    let uniform := data.uniforms.length
    let data1 : BvhData :=
      ⟨data.uniforms ++ [⟨0, 0, data.indices.length, itms.length, b⟩],
       data.indices ++ itms⟩
    let data2 : BvhData :=
      match f with
      | some c =>
        let r := intoAabbUniform c data1
        ⟨r.1.uniforms.set uniform { (r.1.uniforms.getD uniform default) with fst := r.2 },
         r.1.indices⟩
      | none => data1
    let data3 : BvhData :=
      match s with
      | some c =>
        let r := intoAabbUniform c data2
        ⟨r.1.uniforms.set uniform { (r.1.uniforms.getD uniform default) with snd := r.2 },
         r.1.indices⟩
      | none => data2
    (data3, uniform)

/-- `BvhData::new` (`src/lib/bvh/mod.rs`, lines 31–64). -/
def BvhData.new (a : Aabb) : BvhData := (intoAabbUniform a ⟨[], []⟩).1

/-- All item indices stored in a tree, in the depth-first order the
flattener emits them. -/
def collectItems : Aabb → List ℕ
  | .mk f s _ itms =>
    itms ++
      (match f with
       | some c => collectItems c
       | none => []) ++
      (match s with
       | some c => collectItems c
       | none => [])

/-- The number of nodes of a tree. -/
def nodeCount : Aabb → ℕ
  | .mk f s _ _ =>
    1 +
      (match f with
       | some c => nodeCount c
       | none => 0) +
      (match s with
       | some c => nodeCount c
       | none => 0)

/-- The leaves of a tree: nodes with neither child cell set. -/
def leavesOf : Aabb → List Aabb
  | .mk none none b itms => [.mk none none b itms]
  | .mk (some c) none _ _ => leavesOf c
  | .mk none (some c) _ _ => leavesOf c
  | .mk (some cf) (some cs) _ _ => leavesOf cf ++ leavesOf cs

/-- The flat node records the flattener emits for a subtree rooted at
array position `base`, whose first item lands at position `ibase` of the
flat index array.  This is the closed-form specification of
`into_aabb_uniform`. -/
def flatNodes : Aabb → ℕ → ℕ → List AabbUniform
  | .mk f s b itms, base, ibase =>
    let fstLen := match f with | some c => nodeCount c | none => 0
    let fstId : ℕ := match f with | some _ => base + 1 | none => 0
    let sndId : ℕ := match s with | some _ => base + 1 + fstLen | none => 0
    let fstItems := match f with | some c => (collectItems c).length | none => 0
    let fstNodes := match f with
      | some c => flatNodes c (base + 1) (ibase + itms.length)
      | none => []
    let sndNodes := match s with
      | some c => flatNodes c (base + 1 + fstLen) (ibase + itms.length + fstItems)
      | none => []
    ⟨fstId, sndId, ibase, itms.length, b⟩ :: (fstNodes ++ sndNodes)

/-- The `TreeNode` well-formedness invariant: a node is a leaf (no
children, non-empty item list) or internal (two children, empty item
list). -/
inductive Good : Aabb → Prop where
  | leaf (b : Bounds) (itms : List ℕ) (h : itms ≠ []) :
      Good (.mk none none b itms)
  | node (b : Bounds) (f s : Aabb) (hf : Good f) (hs : Good s) :
      Good (.mk (some f) (some s) b [])

/-- Both padding words of a `Bounds` are zero. -/
def PadsZeroB (b : Bounds) : Prop := b.p0 = 0 ∧ b.p1 = 0

/-- Every node of the tree has zero padding words in its bounds. -/
inductive PadsZero : Aabb → Prop where
  | mk (f s : Option Aabb) (b : Bounds) (itms : List ℕ)
      (hb : PadsZeroB b)
      (hf : ∀ c, f = some c → PadsZero c)
      (hs : ∀ c, s = some c → PadsZero c) :
      PadsZero (.mk f s b itms)

/-! ### Serialization model

`BvhData` and `AabbUniform` derive `serde::{Serialize, Deserialize}`;
`Bounds` derives `Serialize` with `#[serde(skip)]` on both padding words
and implements `Deserialize` by hand (`src/lib/bvh/aabb.rs`, lines
21–74), reading `min`/`max` as variable-length sequences and rejecting
any length other than 3.  We model the serialized form structurally:
one record per Rust value, with the padding words absent. -/

/-- The serialized form of `Bounds`: just the two (variable-length)
coordinate sequences, the padding words skipped. -/
structure JBounds where
  min : List ℚ
  max : List ℚ
  deriving DecidableEq, Repr

/-- Serialization of `Bounds` (derived `Serialize` with the two
`#[serde(skip)]` fields omitted). -/
def Bounds.encode (b : Bounds) : JBounds :=
  ⟨[b.min.x, b.min.y, b.min.z], [b.max.x, b.max.y, b.max.z]⟩

/-- The custom `Bounds::deserialize` (`src/lib/bvh/aabb.rs`, lines
21–74): accept exactly three components per axis, restore both padding
words as `0`, otherwise fail with an invalid-length error. -/
def JBounds.decode (j : JBounds) : Except String Bounds :=
  match j.min with
  | [a, b, c] =>
    match j.max with
    | [d, e, f] => .ok ⟨⟨a, b, c⟩, 0, ⟨d, e, f⟩, 0⟩
    | _ => .error "invalid length, expected an array of len 3"
  | _ => .error "invalid length, expected an array of len 3"

/-- Serialized form of `AabbUniform` (derived). -/
structure JAabbUniform where
  fst : ℕ
  snd : ℕ
  item_idx : ℕ
  item_count : ℕ
  bounds : JBounds
  deriving DecidableEq, Repr

/-- Derived serialization of `AabbUniform`. -/
def AabbUniform.encode (u : AabbUniform) : JAabbUniform :=
  ⟨u.fst, u.snd, u.item_idx, u.item_count, u.bounds.encode⟩

/-- Derived deserialization of `AabbUniform`: field for field, with the
custom `Bounds` deserializer for the `bounds` field. -/
def JAabbUniform.decode (j : JAabbUniform) : Except String AabbUniform :=
  match j.bounds.decode with
  | .ok b => .ok ⟨j.fst, j.snd, j.item_idx, j.item_count, b⟩
  | .error e => .error e

/-- Serialized form of `BvhData` (derived). -/
structure JBvhData where
  uniforms : List JAabbUniform
  indices : List ℕ
  deriving DecidableEq, Repr

/-- Derived serialization of `BvhData`. -/
def BvhData.encode (d : BvhData) : JBvhData :=
  ⟨d.uniforms.map AabbUniform.encode, d.indices⟩

/-- Derived deserialization of a sequence of `AabbUniform`s: element by
element, failing on the first error. -/
def decodeUniforms : List JAabbUniform → Except String (List AabbUniform)
  | [] => .ok []
  | j :: rest =>
    match j.decode with
    | .error e => .error e
    | .ok u =>
      match decodeUniforms rest with
      | .error e => .error e
      | .ok us => .ok (u :: us)

/-- Derived deserialization of `BvhData`. -/
def JBvhData.decode (j : JBvhData) : Except String BvhData :=
  match decodeUniforms j.uniforms with
  | .ok us => .ok ⟨us, j.indices⟩
  | .error e => .error e

/-- `BvhIntrs::prepare` (`src/lib/handlers/bvh.rs`, lines 343–351):
decode the blob; on failure propagate the error (`?`) without touching
the `LOADED` cell; on success `OnceCell::set` stores the data only if
the cell was still empty (the result of `set` is discarded). -/
def prepare (bytes : JBvhData) (loaded : Option BvhData) :
    Except String Unit × Option BvhData :=
  match bytes.decode with
  | .error e => (.error e, loaded)
  | .ok data =>
    (.ok (), match loaded with
             | none => some data
             | some old => some old)

/-! ### WGSL traversal model

The intersection routines live in the WGSL source strings `LOGIC` of
`src/lib/handlers/bvh.rs` and `src/lib/handlers/basic.rs`.  The shader
preamble (`compute.wgsl`, referenced by `include_str!` from
`src/lib/shaders/mod.rs`) is not part of the repository sources, so the
pieces it declares (`Ray`, `Prim`, `Intrs`, `config`) are modelled from
the spec; every function below is translated from the `LOGIC` strings
that are in the sources. -/

/-- Modelled from the spec: the WGSL `Ray` struct declared in the
missing `compute.wgsl` — a ray with origin and direction (§4.4). -/
structure Ray where
  origin : V3
  dir : V3
  deriving DecidableEq, Repr

/-- Modelled from the spec: the WGSL `Prim` struct declared in the
missing `compute.wgsl`.  The spec (§3) gives three vertex indices plus a
material id; the in-source shader code additionally reads a shape `tag`
(`1` sphere, `2` triangle) and a `scale` used by the sphere test, so
those fields are included as used. -/
structure PrimG where
  a : ℕ
  b : ℕ
  c : ℕ
  tag : ℕ
  scale : ℚ
  deriving DecidableEq, Repr

instance : Inhabited PrimG := ⟨⟨0, 0, 0, 0, 0⟩⟩

/-- Modelled from the spec: the mapping of a scene `geom::Prim` into the
GPU primitive record (the `bytemuck` cast of the primitives buffer set
up in `src/lib/scene/mod.rs`): the three vertex indices and the material
word, which the shader reads as `tag`. -/
def Prim.toGpu (p : Prim) : PrimG := ⟨p.ia, p.ib, p.ic, p.material, 0⟩

/-- The 'null' primitive placed at index 0 of the GPU primitives buffer
(`src/lib/scene/mod.rs`, lines 161–166: indices `[0; 3]`,
`material: -1`, i.e. `u32::MAX` after the cast). -/
def nullPrim : PrimG := ⟨0, 0, 0, 4294967295, 0⟩

/-- The GPU primitives buffer: the null primitive followed by the scene
primitives (`src/lib/scene/mod.rs`, lines 160–166). -/
def gpuPrims (prims : List Prim) : List PrimG :=
  nullPrim :: prims.map Prim.toGpu

/-- The WGSL `Intrs` result: a primitive and a parametric distance. -/
structure Intrs where
  prim : PrimG
  t : ℚ
  deriving DecidableEq, Repr

/-- Modelled from the spec: the `config` uniform (missing
`compute.wgsl`) as read by the in-source shader code — the ray-triangle
epsilon and the `[t_min, t_max]` trace window (§4.4, §6). -/
structure Cfg where
  eps : ℚ
  t_min : ℚ
  t_max : ℚ
  deriving DecidableEq, Repr

/-- `intrs_empty` as defined in `src/lib/handlers/basic.rs` (lines
34–36): the no-hit sentinel, carrying `primitives[0]` and a distance
beyond the trace window. -/
def intrs_empty (cfg : Cfg) (primitives : List PrimG) : Intrs :=
  ⟨primitives.getD 0 default, cfg.t_max + 1⟩

/-- `intrs_tri`, identical in `src/lib/handlers/basic.rs` (lines
87–122) and `src/lib/handlers/bvh.rs` (lines 195–230): the double-sided
determinant (Möller–Trumbore) ray-triangle test with non-normalized
barycentric thresholds and the `[t_min, t_max]` window check. -/
def intrs_tri (cfg : Cfg) (primitives : List PrimG)
    (vertices : List PrimVertex) (r : Ray) (s : PrimG) : Intrs :=
  let e1 := (vpos vertices s.b).sub (vpos vertices s.a)
  let e2 := (vpos vertices s.c).sub (vpos vertices s.a)
  let p := r.dir.cross e2
  let t := r.origin.sub (vpos vertices s.a)
  let q := t.cross e1
  let det := e1.dot p
  let pass : Bool :=
    if det > cfg.eps then
      let u := t.dot p
      if u < 0 ∨ u > det then false
      else
        let v := r.dir.dot q
        if v < 0 ∨ u + v > det then false else true
    else if det < -1 * cfg.eps then
      let u := t.dot p
      if u > 0 ∨ u < det then false
      else
        let v := r.dir.dot q
        if v > 0 ∨ u + v < det then false else true
    else false
  if pass then
    let w := e2.dot q / det
    if w > cfg.t_max ∨ w < cfg.t_min then intrs_empty cfg primitives
    else ⟨s, w⟩
  else intrs_empty cfg primitives

/-- `intrs_sphere` from `src/lib/handlers/basic.rs` (lines 38–85).  The
square root (WGSL `sqrt`, an irrational operation) is passed in as an
oracle `sq`. -/
def intrs_sphere (cfg : Cfg) (primitives : List PrimG)
    (vertices : List PrimVertex) (sq : ℚ → ℚ) (r : Ray) (s : PrimG) : Intrs :=
  let r2 := s.scale * s.scale
  let l := (vpos vertices s.a).sub r.origin
  let mag := sq (r.dir.dot r.dir)
  let dirn := r.dir.scale (1 / mag)
  let tca := l.dot dirn
  let d2 := l.dot l - tca * tca
  if d2 > r2 then intrs_empty cfg primitives
  else
    let thc := sq (r2 - d2)
    let t0 := tca - thc
    let w0 := tca + thc
    let len := sq (r.dir.dot r.dir)
    let t1 := if t0 < cfg.t_max ∧ t0 > cfg.t_min then t0 / len else -1
    let w1 := if w0 < cfg.t_max ∧ w0 > cfg.t_min then t1 / len else -1
    if t1 > 0 ∧ w1 = -1 then ⟨s, t1⟩
    else if w1 > 0 ∧ t1 = -1 then ⟨s, w1⟩
    else if t1 > 0 ∧ w1 > 0 then
      if t1 < w1 then ⟨s, t1⟩ else ⟨s, w1⟩
    else intrs_empty cfg primitives

/-- The brute-force `intrs` from `src/lib/handlers/basic.rs` (lines
124–154): scan primitives from index `1`, skip any primitive whose
`tag`/`a`/`b`/`c` all equal the excluded primitive's, dispatch on `tag`,
and keep the hit only when strictly inside the trace window and nearer
than the current best. -/
def basicIntrs (cfg : Cfg) (primitives : List PrimG)
    (vertices : List PrimVertex) (sq : ℚ → ℚ) (r : Ray) (excl : PrimG) : Intrs :=
  let step := fun (acc : Intrs) (i : ℕ) =>
    let prim := primitives.getD i default
    let excluded : Bool :=
      decide (prim.tag ≠ excl.tag) || decide (prim.a ≠ excl.a) ||
      decide (prim.b ≠ excl.b) || decide (prim.c ≠ excl.c)
    if excluded then
      let temp :=
        if prim.tag = 1 then intrs_sphere cfg primitives vertices sq r prim
        else if prim.tag = 2 then intrs_tri cfg primitives vertices r prim
        else intrs_empty cfg primitives
      let replace : Bool :=
        decide (temp.t < acc.t) && decide (temp.t > cfg.t_min) &&
        decide (temp.t < cfg.t_max)
      if replace then temp else acc
    else acc
  ((List.range primitives.length).drop 1).foldl step
    ⟨primitives.getD 0 default, cfg.t_max + 1⟩

/-- The WGSL constant `INF_POS = 0x1.p+38f` from
`src/lib/handlers/bvh.rs` (line 232). -/
def INF_POS : ℚ := 2 ^ 38

/-- `collides` from `src/lib/handlers/bvh.rs` (lines 234–254): the slab
test with per-face inflation by the interpolated `<EPS>` literal.  The
WGSL divisions are total on `ℚ` (division by zero yields `0` rather than
IEEE `±∞`), so theorems about this function restrict the ray direction
components to be non-zero where that matters. -/
def collides (epsIl : ℚ) (bb : AabbUniform) (ray : Ray) : Bool :=
  let t0x := (bb.bounds.min.x - epsIl - ray.origin.x) / ray.dir.x
  let t1x := (bb.bounds.max.x + epsIl - ray.origin.x) / ray.dir.x
  let t_min0 := min t0x t1x
  let t_max0 := max t0x t1x
  let t0y := (bb.bounds.min.y - epsIl - ray.origin.y) / ray.dir.y
  let t1y := (bb.bounds.max.y + epsIl - ray.origin.y) / ray.dir.y
  let t_min1 := max t_min0 (min (min t0y t1y) (-INF_POS))
  let t_max1 := min t_max0 (max (max t0y t1y) INF_POS)
  let t0z := (bb.bounds.min.z - epsIl - ray.origin.z) / ray.dir.z
  let t1z := (bb.bounds.max.z + epsIl - ray.origin.z) / ray.dir.z
  let t_min2 := max t_min1 (min (min t0z t1z) (-INF_POS))
  let t_max2 := min t_max1 (max (max t0z t1z) INF_POS)
  decide (t_min2 < t_max2)

/-- `intrs_bvh` from `src/lib/handlers/bvh.rs` (lines 272–286): test
every primitive in the leaf's index range `[item_idx, item_idx +
item_count)`, keeping the nearest.  The `excl` parameter is received but
never read. -/
def intrs_bvh (cfg : Cfg) (primitives : List PrimG)
    (vertices : List PrimVertex) (aabb_indices : List ℕ)
    (bb : AabbUniform) (r : Ray) (excl : PrimG) : Intrs :=
  let step := fun (acc : Intrs) (i : ℕ) =>
    let prim := primitives.getD (aabb_indices.getD i 0) default
    let temp := intrs_tri cfg primitives vertices r prim
    if temp.t < acc.t then temp else acc
  ((List.range bb.item_count).map (bb.item_idx + ·)).foldl step
    (intrs_empty cfg primitives)

/-- The loop body of the explicit-stack `intrs` from
`src/lib/handlers/bvh.rs` (lines 306–335), with the stack as a list
(`push fst; push snd` leaves `snd` on top) and the `stack_empty` flag
protocol folded into the empties check; `fuel` bounds the number of
iterations. -/
def intrsLoop (cfg : Cfg) (epsIl : ℚ) (primitives : List PrimG)
    (vertices : List PrimVertex) (uniforms : List AabbUniform)
    (aabb_indices : List ℕ) (r : Ray) (excl : PrimG) :
    ℕ → List ℕ → Intrs → Intrs
  | 0, _, acc => acc
  | _ + 1, [], acc => acc
  | fuel + 1, bbIdx :: rest, acc =>
    let bb := uniforms.getD bbIdx default
    if collides epsIl bb r then
      if bb.item_count > 0 then
        let temp := intrs_bvh cfg primitives vertices aabb_indices bb r excl
        let acc' := if temp.t < acc.t then temp else acc
        intrsLoop cfg epsIl primitives vertices uniforms aabb_indices r excl
          fuel rest acc'
      else
        intrsLoop cfg epsIl primitives vertices uniforms aabb_indices r excl
          fuel (bb.snd :: bb.fst :: rest) acc
    else
      intrsLoop cfg epsIl primitives vertices uniforms aabb_indices r excl
        fuel rest acc

/-- The tree-traversal `intrs` from `src/lib/handlers/bvh.rs` (lines
306–335): push the root id `0`, then loop. -/
def bvhIntrs (cfg : Cfg) (epsIl : ℚ) (primitives : List PrimG)
    (vertices : List PrimVertex) (data : BvhData) (r : Ray) (excl : PrimG)
    (fuel : ℕ) : Intrs :=
  intrsLoop cfg epsIl primitives vertices data.uniforms data.indices r excl
    fuel [0] (intrs_empty cfg primitives)

/-- The stream of vertex positions `Bounds::new` visits, in order. -/
def vertsOf (l : List Prim) (v : List PrimVertex) : List V3 :=
  l.flatMap (fun p => [vpos v p.ia, vpos v p.ib, vpos v p.ic])

/-- The extrema fold of `Bounds::new`, one vertex at a time. -/
def foldMinMax (vs : List V3) (acc : V3 × V3) : V3 × V3 :=
  vs.foldl (fun a w => extremaVertex w a.1 a.2) acc

/-- The number of times an extent `d` must be halved before it drops
below the `eps * 0.5` splitting floor: the least `n` with
`d < 2 ^ n * (eps * 0.5)`.  Well-defined for `eps > 0` by the
archimedean property; `0` for non-positive `eps` (where the Rust
recursion would not terminate). -/
def halvings (eps d : ℚ) : ℕ :=
  if h : 0 < eps then
    Nat.find (p := fun n => d < 2 ^ n * (eps * (1/2)))
      (by
        obtain ⟨n, hn⟩ := exists_nat_gt (d / (eps * (1/2)))
        refine ⟨n, ?_⟩
        have he : 0 < eps * (1/2) := by linarith
        have hpow : (n : ℚ) < 2 ^ n := by exact_mod_cast Nat.lt_two_pow n
        have := (div_lt_iff he).mp (lt_trans hn hpow)
        linarith)
  else 0

/-- The axis extents of a box. -/
def extents (b : Bounds) : V3 := b.max.sub b.min

/-- The termination measure on bounds: total remaining halvings over
the three axes. -/
def hsum (eps : ℚ) (b : Bounds) : ℕ :=
  halvings eps (extents b).x + halvings eps (extents b).y +
    halvings eps (extents b).z

/-! ### Concrete scenes used as witnesses and counterexamples -/

/-- A 9-vertex scene: three triangles whose centroids all lie in the
upper x half of the root box, one of which has a vertex at `x = 0`. -/
def vC7 : List PrimVertex := [
  ⟨⟨0, 0, 0⟩, 0, default, 0⟩, ⟨⟨9/10, 1/10, 0⟩, 0, default, 0⟩,
  ⟨⟨9/10, 0, 1/10⟩, 0, default, 0⟩,
  ⟨⟨1, 0, 0⟩, 0, default, 0⟩, ⟨⟨8/10, 1/10, 1/10⟩, 0, default, 0⟩,
  ⟨⟨9/10, 1/20, 0⟩, 0, default, 0⟩,
  ⟨⟨7/10, 0, 0⟩, 0, default, 0⟩, ⟨⟨8/10, 1/10, 0⟩, 0, default, 0⟩,
  ⟨⟨9/10, 0, 1/10⟩, 0, default, 0⟩]

/-- Three triangles over `vC7`. -/
def pC7 : List Prim := [⟨0, 1, 2, 0⟩, ⟨3, 4, 5, 0⟩, ⟨6, 7, 8, 0⟩]

/-- The leaf the builder produces for `pC7`/`vC7` at `eps = 3/2`: a
degenerate split collapses the root bounds to the upper x half-box, the
retry hits the extent floor, and the node stays a leaf with the
collapsed bounds. -/
def aabbC7 : Aabb :=
  .mk none none ⟨⟨1/2, 0, 0⟩, 0, ⟨1, 1/10, 1/10⟩, 0⟩ [0, 1, 2]

/-- A one-triangle scene (vertices `(0,0,0)`, `(4,0,0)`, `(0,4,0)`,
material word `2`, which the shader reads as the triangle tag). -/
def pC4 : List Prim := [⟨0, 1, 2, 2⟩]

/-- The vertices of the one-triangle scene. -/
def vC4 : List PrimVertex :=
  [⟨⟨0, 0, 0⟩, 0, default, 0⟩, ⟨⟨4, 0, 0⟩, 0, default, 0⟩,
   ⟨⟨0, 4, 0⟩, 0, default, 0⟩]

/-- The tree built from the one-triangle scene (a single root leaf). -/
def treeC4 : Aabb :=
  (fromSceneFuel 10 (1/50) (.active pC4 vC4)).getD default

/-- The GPU record of the one triangle (`primitives[1]` after the null
primitive is prepended). -/
def tgC4 : PrimG := ⟨0, 1, 2, 2, 0⟩

/-- A trace configuration: `eps = 0.02` (the `BvhConfig` default),
window `[1/1000, 1000]`. -/
def cfgC4 : Cfg := ⟨1/50, 1/1000, 1000⟩

/-- A ray from `(1,1,5)` towards the triangle, with all direction
components non-zero so the slab-test divisions are exact. -/
def rayC4 : Ray := ⟨⟨1, 1, 5⟩, ⟨1/100, 1/100, -1⟩⟩

/-- A hand-built leaf record whose single item slot holds GPU index `1`
(the real triangle), used to exercise the leaf intersection routine
directly. -/
def aabbUC8 : AabbUniform := ⟨0, 0, 0, 1, Bounds.new pC4 vC4⟩

/-! ## Helper lemmas -/

theorem sizeOf_fst_lt (c : Aabb) (f s : Option Aabb) (b : Bounds)
    (itms : List ℕ) (hc : f = some c) :
    sizeOf c < sizeOf (Aabb.mk f s b itms) := by
  subst hc
  simp only [Aabb.mk.sizeOf_spec, Option.some.sizeOf_spec]
  omega

theorem sizeOf_snd_lt (c : Aabb) (f s : Option Aabb) (b : Bounds)
    (itms : List ℕ) (hc : s = some c) :
    sizeOf c < sizeOf (Aabb.mk f s b itms) := by
  subst hc
  simp only [Aabb.mk.sizeOf_spec, Option.some.sizeOf_spec]
  omega

/-- Strong induction over the (nested) `Aabb` tree type. -/
theorem Aabb.inductOn (motive : Aabb → Prop)
    (h : ∀ f s b itms,
      (∀ c, f = some c → motive c) → (∀ c, s = some c → motive c) →
      motive (.mk f s b itms)) (a : Aabb) : motive a := by
  have key : ∀ n (a : Aabb), sizeOf a ≤ n → motive a := by
    intro n
    induction n with
    | zero =>
      intro a ha
      cases a with
      | mk f s b itms => simp [Aabb.mk.sizeOf_spec] at ha
    | succ n ih =>
      intro a ha
      cases a with
      | mk f s b itms =>
        apply h
        · intro c hc
          apply ih
          have := sizeOf_fst_lt c f s b itms hc
          omega
        · intro c hc
          apply ih
          have := sizeOf_snd_lt c f s b itms hc
          omega
  exact key (sizeOf a) a le_rfl

theorem getD_append_length {α : Type} (l r : List α) (x d : α) :
    (l ++ x :: r).getD l.length d = x := by
  induction l with
  | nil => rfl
  | cons y l ih => simpa using ih

theorem set_append_length {α : Type} (l r : List α) (x y : α) :
    (l ++ x :: r).set l.length y = l ++ y :: r := by
  induction l with
  | nil => rfl
  | cons z l ih => simpa using ih

theorem flatNodes_length (a : Aabb) :
    ∀ base ibase, (flatNodes a base ibase).length = nodeCount a := by
  induction a using Aabb.inductOn with
  | h f s b itms ihf ihs =>
    intro base ibase
    cases f with
    | none =>
      cases s with
      | none => simp [flatNodes, nodeCount]
      | some cs => simp [flatNodes, nodeCount, ihs cs rfl]; omega
    | some cf =>
      cases s with
      | none => simp [flatNodes, nodeCount, ihf cf rfl]; omega
      | some cs =>
        simp [flatNodes, nodeCount, ihf cf rfl, ihs cs rfl]; omega

/-- The closed form of the flattener: `into_aabb_uniform` appends the
`flatNodes` records and the depth-first item concatenation to the
accumulated data, and returns the node's own array position. -/
theorem intoAabbUniform_spec (a : Aabb) : ∀ (d : BvhData),
    intoAabbUniform a d =
      (⟨d.uniforms ++ flatNodes a d.uniforms.length d.indices.length,
        d.indices ++ collectItems a⟩, d.uniforms.length) := by
  induction a using Aabb.inductOn with
  | h f s b itms ihf ihs =>
    intro d
    cases f with
    | none =>
      cases s with
      | none => simp [intoAabbUniform, flatNodes, collectItems]
      | some cs =>
        simp only [intoAabbUniform, ihs cs rfl]
        simp only [List.append_assoc, List.cons_append, List.singleton_append,
          List.length_append, List.length_cons, List.length_nil]
        rw [getD_append_length, set_append_length]
        simp [flatNodes, collectItems]
    | some cf =>
      cases s with
      | none =>
        simp only [intoAabbUniform, ihf cf rfl]
        simp only [List.append_assoc, List.cons_append, List.singleton_append,
          List.length_append, List.length_cons, List.length_nil]
        rw [getD_append_length, set_append_length]
        simp [flatNodes, collectItems]
      | some cs =>
        simp only [intoAabbUniform, ihf cf rfl]
        simp only [List.append_assoc, List.cons_append, List.singleton_append,
          List.length_append, List.length_cons, List.length_nil]
        rw [getD_append_length, set_append_length]
        simp only [ihs cs rfl]
        simp only [List.append_assoc, List.cons_append, List.singleton_append,
          List.length_append, List.length_cons, List.length_nil]
        rw [getD_append_length, set_append_length]
        simp [flatNodes, collectItems, flatNodes_length]
        constructor
        · omega
        · have h1 : d.uniforms.length + (nodeCount cf + 1) =
              d.uniforms.length + 1 + nodeCount cf := by omega
          have h2 : d.indices.length + (itms.length + (collectItems cf).length) =
              d.indices.length + itms.length + (collectItems cf).length := by omega
          rw [h1, h2]

theorem BvhData_new_uniforms (a : Aabb) :
    (BvhData.new a).uniforms = flatNodes a 0 0 := by
  simp [BvhData.new, intoAabbUniform_spec]

theorem BvhData_new_indices (a : Aabb) :
    (BvhData.new a).indices = collectItems a := by
  simp [BvhData.new, intoAabbUniform_spec]

/-- `Aabb::split` preserves the item multiset: the depth-first item
concatenation of the result is a permutation of the input node's item
list. -/
theorem splitFuel_perm (eps : ℚ) (prims : List Prim)
    (vertices : List PrimVertex) :
    ∀ (fuel : ℕ) (b : Bounds) (itms : List ℕ) (t : Aabb),
      splitFuel eps prims vertices fuel (.mk none none b itms) = some t →
      (collectItems t).Perm itms := by
  intro fuel
  induction fuel with
  | zero => intro b itms t h; simp [splitFuel] at h
  | succ fuel ih =>
    intro b itms t h
    simp only [splitFuel, Aabb.items, Aabb.fst, Aabb.snd, Aabb.bounds] at h
    by_cases h2 : itms.length ≤ 2
    · rw [if_pos h2] at h
      cases h
      simp [collectItems]
    · rw [if_neg h2] at h
      cases hb : splitBoxes eps b with
      | none =>
        simp only [hb] at h
        cases h
        simp [collectItems]
      | some bs =>
        obtain ⟨fstB, sndB⟩ := bs
        simp only [hb] at h
        by_cases hp1 :
            (itms.partition
              (fun idx => fstB.contains (centroid prims vertices idx))).1.isEmpty
        · rw [if_pos hp1] at h
          exact ih _ _ _ h
        · rw [if_neg hp1] at h
          by_cases hp2 :
              (itms.partition
                (fun idx => fstB.contains (centroid prims vertices idx))).2.isEmpty
          · rw [if_pos hp2] at h
            exact ih _ _ _ h
          · rw [if_neg hp2] at h
            cases hf : splitFuel eps prims vertices fuel
                (.mk none none
                  (Bounds.new
                    ((itms.partition
                      (fun idx => fstB.contains (centroid prims vertices idx))).1.map
                        (prims.getD · default)) vertices)
                  (itms.partition
                    (fun idx => fstB.contains (centroid prims vertices idx))).1) with
            | none => simp only [hf] at h; cases h
            | some fstC =>
              cases hs : splitFuel eps prims vertices fuel
                  (.mk none none
                    (Bounds.new
                      ((itms.partition
                        (fun idx => fstB.contains (centroid prims vertices idx))).2.map
                          (prims.getD · default)) vertices)
                    (itms.partition
                      (fun idx => fstB.contains (centroid prims vertices idx))).2) with
              | none => simp only [hf, hs] at h; cases h
              | some sndC =>
                simp only [hf, hs, Option.some.injEq] at h
                subst h
                have pf := ih _ _ _ hf
                have ps := ih _ _ _ hs
                simp only [collectItems, List.nil_append]
                refine (List.Perm.append pf ps).trans ?_
                simp only [List.partition_eq_filter_filter]
                exact List.filter_append_perm _ itms

/-- Induction over the call tree of `Aabb::split`, for runs started on a
node with empty child cells: any property `motive b itms t` closed under
the three recursive branches (two degenerate collapses, one successful
split) and true on the leaf exits holds for every successful run. -/
theorem splitFuel_induction (eps : ℚ) (prims : List Prim)
    (vertices : List PrimVertex) (motive : Bounds → List ℕ → Aabb → Prop)
    (h_leaf : ∀ b itms, motive b itms (.mk none none b itms))
    (h_collapse1 : ∀ b itms fstB sndB t,
      splitBoxes eps b = some (fstB, sndB) →
      (itms.partition
        (fun idx => fstB.contains (centroid prims vertices idx))).1.isEmpty = true →
      motive sndB itms t → motive b itms t)
    (h_collapse2 : ∀ b itms fstB sndB t,
      splitBoxes eps b = some (fstB, sndB) →
      ¬(itms.partition
        (fun idx => fstB.contains (centroid prims vertices idx))).1.isEmpty = true →
      (itms.partition
        (fun idx => fstB.contains (centroid prims vertices idx))).2.isEmpty = true →
      motive fstB itms t → motive b itms t)
    (h_node : ∀ b itms fstB sndB fstC sndC,
      ¬itms.length ≤ 2 →
      splitBoxes eps b = some (fstB, sndB) →
      ¬(itms.partition
        (fun idx => fstB.contains (centroid prims vertices idx))).1.isEmpty = true →
      ¬(itms.partition
        (fun idx => fstB.contains (centroid prims vertices idx))).2.isEmpty = true →
      motive
        (Bounds.new
          ((itms.partition
            (fun idx => fstB.contains (centroid prims vertices idx))).1.map
              (prims.getD · default)) vertices)
        (itms.partition
          (fun idx => fstB.contains (centroid prims vertices idx))).1 fstC →
      motive
        (Bounds.new
          ((itms.partition
            (fun idx => fstB.contains (centroid prims vertices idx))).2.map
              (prims.getD · default)) vertices)
        (itms.partition
          (fun idx => fstB.contains (centroid prims vertices idx))).2 sndC →
      motive b itms (.mk (some fstC) (some sndC) b [])) :
    ∀ (fuel : ℕ) (b : Bounds) (itms : List ℕ) (t : Aabb),
      splitFuel eps prims vertices fuel (.mk none none b itms) = some t →
      motive b itms t := by
  intro fuel
  induction fuel with
  | zero => intro b itms t h; simp [splitFuel] at h
  | succ fuel ih =>
    intro b itms t h
    simp only [splitFuel, Aabb.items, Aabb.fst, Aabb.snd, Aabb.bounds] at h
    by_cases h2 : itms.length ≤ 2
    · rw [if_pos h2] at h
      cases h
      exact h_leaf b itms
    · rw [if_neg h2] at h
      cases hb : splitBoxes eps b with
      | none =>
        simp only [hb] at h
        cases h
        exact h_leaf b itms
      | some bs =>
        obtain ⟨fstB, sndB⟩ := bs
        simp only [hb] at h
        by_cases hp1 :
            (itms.partition
              (fun idx => fstB.contains (centroid prims vertices idx))).1.isEmpty = true
        · rw [if_pos hp1] at h
          exact h_collapse1 b itms fstB sndB t hb hp1 (ih _ _ _ h)
        · rw [if_neg hp1] at h
          by_cases hp2 :
              (itms.partition
                (fun idx => fstB.contains (centroid prims vertices idx))).2.isEmpty = true
          · rw [if_pos hp2] at h
            exact h_collapse2 b itms fstB sndB t hb hp1 hp2 (ih _ _ _ h)
          · rw [if_neg hp2] at h
            cases hf : splitFuel eps prims vertices fuel
                (.mk none none
                  (Bounds.new
                    ((itms.partition
                      (fun idx => fstB.contains (centroid prims vertices idx))).1.map
                        (prims.getD · default)) vertices)
                  (itms.partition
                    (fun idx => fstB.contains (centroid prims vertices idx))).1) with
            | none => simp only [hf] at h; cases h
            | some fstC =>
              cases hs : splitFuel eps prims vertices fuel
                  (.mk none none
                    (Bounds.new
                      ((itms.partition
                        (fun idx => fstB.contains (centroid prims vertices idx))).2.map
                          (prims.getD · default)) vertices)
                    (itms.partition
                      (fun idx => fstB.contains (centroid prims vertices idx))).2) with
              | none => simp only [hf, hs] at h; cases h
              | some sndC =>
                simp only [hf, hs, Option.some.injEq] at h
                subst h
                exact h_node b itms fstB sndB fstC sndC h2 hb hp1 hp2
                  (ih _ _ _ hf) (ih _ _ _ hs)

theorem splitBoxes_pads {eps : ℚ} {b f s : Bounds}
    (h : splitBoxes eps b = some (f, s)) (hb : PadsZeroB b) :
    PadsZeroB f ∧ PadsZeroB s := by
  unfold splitBoxes at h
  dsimp only at h
  obtain ⟨h0, h1⟩ := hb
  split_ifs at h <;> cases h <;> simp [PadsZeroB, h0, h1]

theorem boundsNew_pads (l : List Prim) (v : List PrimVertex) :
    PadsZeroB (Bounds.new l v) := by
  simp [Bounds.new, PadsZeroB]

/-- A successful `split` run started on a node with empty child cells
and a non-empty item list produces a well-formed tree: every node is a
leaf with items or an internal node with two children and no items. -/
theorem splitFuel_good {eps : ℚ} {prims : List Prim}
    {vertices : List PrimVertex} {fuel : ℕ} {b : Bounds} {itms : List ℕ}
    {t : Aabb} (hne : itms ≠ [])
    (h : splitFuel eps prims vertices fuel (.mk none none b itms) = some t) :
    Good t := by
  refine splitFuel_induction eps prims vertices
    (fun _ itms t => itms ≠ [] → Good t) ?_ ?_ ?_ ?_ fuel b itms t h hne
  · exact fun b itms hne => Good.leaf b itms hne
  · exact fun _ _ _ _ _ _ _ ih hne => ih hne
  · exact fun _ _ _ _ _ _ _ _ ih hne => ih hne
  · intro b itms fstB sndB fstC sndC h2 hb hp1 hp2 ihf ihs _
    refine Good.node b fstC sndC (ihf ?_) (ihs ?_)
    · simpa [List.isEmpty_iff] using hp1
    · simpa [List.isEmpty_iff] using hp2

/-- A successful `split` run started on bounds with zero padding words
produces a tree all of whose bounds have zero padding words. -/
theorem splitFuel_pads {eps : ℚ} {prims : List Prim}
    {vertices : List PrimVertex} {fuel : ℕ} {b : Bounds} {itms : List ℕ}
    {t : Aabb} (hpz : PadsZeroB b)
    (h : splitFuel eps prims vertices fuel (.mk none none b itms) = some t) :
    PadsZero t := by
  refine splitFuel_induction eps prims vertices
    (fun b _ t => PadsZeroB b → PadsZero t) ?_ ?_ ?_ ?_ fuel b itms t h hpz
  · intro b itms hb
    exact PadsZero.mk _ _ _ _ hb (fun c hc => by cases hc) (fun c hc => by cases hc)
  · intro b itms fstB sndB t hsb _ ih hb
    exact ih (splitBoxes_pads hsb hb).2
  · intro b itms fstB sndB t hsb _ _ ih hb
    exact ih (splitBoxes_pads hsb hb).1
  · intro b itms fstB sndB fstC sndC _ _ _ _ ihf ihs hb
    refine PadsZero.mk _ _ _ _ hb ?_ ?_
    · intro c hc
      cases hc
      exact ihf (boundsNew_pads _ _)
    · intro c hc
      cases hc
      exact ihs (boundsNew_pads _ _)

theorem nodeCount_pos (a : Aabb) : 1 ≤ nodeCount a := by
  cases a with
  | mk f s b itms => cases f <;> cases s <;> simp [nodeCount] <;> omega

/-- Structure of the flat records of a well-formed tree: each is a leaf
record (positive item count, zeroed child ids) or an internal record
(zero item count, both child ids strictly between the node's own
position and the end of the subtree's block). -/
theorem flatNodes_struct {a : Aabb} (hg : Good a) :
    ∀ (base ibase k : ℕ), k < (flatNodes a base ibase).length →
      (0 < ((flatNodes a base ibase).getD k default).item_count ∧
        ((flatNodes a base ibase).getD k default).fst = 0 ∧
        ((flatNodes a base ibase).getD k default).snd = 0) ∨
      (((flatNodes a base ibase).getD k default).item_count = 0 ∧
        base + k < ((flatNodes a base ibase).getD k default).fst ∧
        ((flatNodes a base ibase).getD k default).fst < base + nodeCount a ∧
        base + k < ((flatNodes a base ibase).getD k default).snd ∧
        ((flatNodes a base ibase).getD k default).snd < base + nodeCount a) := by
  induction hg with
  | leaf b itms hne =>
    intro base ibase k hk
    simp [flatNodes] at hk
    subst hk
    left
    simpa [flatNodes] using List.length_pos.mpr hne
  | node b f s hf hs ihf ihs =>
    intro base ibase k hk
    have hnc : nodeCount (Aabb.mk (some f) (some s) b []) =
        1 + nodeCount f + nodeCount s := by simp [nodeCount]
    have h1 := nodeCount_pos f
    have h2 := nodeCount_pos s
    simp only [flatNodes, List.length_cons, List.length_append,
      flatNodes_length] at hk
    cases k with
    | zero =>
      right
      simp only [flatNodes, List.getD_cons_zero]
      refine ⟨rfl, ?_, ?_, ?_, ?_⟩ <;> omega
    | succ j =>
      simp only [flatNodes, List.getD_cons_succ]
      by_cases hj : j < nodeCount f
      · rw [List.getD_append _ _ _ _ (by simpa [flatNodes_length] using hj)]
        have hih := ihf (base + 1) (ibase + List.length ([] : List ℕ)) j
          (by simpa [flatNodes_length] using hj)
        rcases hih with h | h
        · left; exact h
        · right
          refine ⟨h.1, ?_, ?_, ?_, ?_⟩ <;> omega
      · push_neg at hj
        rw [List.getD_append_right _ _ _ _ (by simpa [flatNodes_length] using hj)]
        have hjlen : j - (flatNodes f (base + 1)
            (ibase + List.length ([] : List ℕ))).length < nodeCount s := by
          simp only [flatNodes_length]
          omega
        have hih := ihs (base + 1 + nodeCount f)
          (ibase + List.length ([] : List ℕ) + (collectItems f).length)
          (j - (flatNodes f (base + 1) (ibase + List.length ([] : List ℕ))).length)
          (by simpa [flatNodes_length] using hjlen)
        rcases hih with h | h
        · left; exact h
        · right
          simp only [flatNodes_length] at h ⊢
          refine ⟨h.1, ?_, ?_, ?_, ?_⟩ <;> omega

theorem contains_true_iff (b : Bounds) (p : V3) :
    b.contains p = true ↔
      (b.min.x ≤ p.x ∧ p.x ≤ b.max.x ∧ b.min.y ≤ p.y ∧ p.y ≤ b.max.y ∧
        b.min.z ≤ p.z ∧ p.z ≤ b.max.z) := by
  simp [Bounds.contains, ge_iff_le, and_assoc]

theorem extremaVertex_bounds (w mn mx : V3) :
    (extremaVertex w mn mx).1.x ≤ mn.x ∧ (extremaVertex w mn mx).1.y ≤ mn.y ∧
    (extremaVertex w mn mx).1.z ≤ mn.z ∧
    mx.x ≤ (extremaVertex w mn mx).2.x ∧ mx.y ≤ (extremaVertex w mn mx).2.y ∧
    mx.z ≤ (extremaVertex w mn mx).2.z ∧
    (extremaVertex w mn mx).1.x ≤ w.x ∧ (extremaVertex w mn mx).1.y ≤ w.y ∧
    (extremaVertex w mn mx).1.z ≤ w.z ∧
    w.x ≤ (extremaVertex w mn mx).2.x ∧ w.y ≤ (extremaVertex w mn mx).2.y ∧
    w.z ≤ (extremaVertex w mn mx).2.z := by
  refine ⟨?_, ?_, ?_, ?_, ?_, ?_, ?_, ?_, ?_, ?_, ?_, ?_⟩ <;>
    simp [extremaVertex] <;> split_ifs <;> linarith

theorem foldMinMax_le (vs : List V3) : ∀ acc : V3 × V3,
    (foldMinMax vs acc).1.x ≤ acc.1.x ∧ (foldMinMax vs acc).1.y ≤ acc.1.y ∧
    (foldMinMax vs acc).1.z ≤ acc.1.z ∧
    acc.2.x ≤ (foldMinMax vs acc).2.x ∧ acc.2.y ≤ (foldMinMax vs acc).2.y ∧
    acc.2.z ≤ (foldMinMax vs acc).2.z := by
  induction vs with
  | nil => intro acc; simp [foldMinMax]
  | cons w vs ih =>
    intro acc
    have h1 := extremaVertex_bounds w acc.1 acc.2
    have h2 := ih (extremaVertex w acc.1 acc.2)
    simp only [foldMinMax, List.foldl_cons] at h2 ⊢
    refine ⟨?_, ?_, ?_, ?_, ?_, ?_⟩ <;> linarith [h1.1, h1.2.1, h1.2.2.1,
      h1.2.2.2.1, h1.2.2.2.2.1, h1.2.2.2.2.2.1, h2.1, h2.2.1, h2.2.2.1,
      h2.2.2.2.1, h2.2.2.2.2.1, h2.2.2.2.2.2]

theorem foldMinMax_mem {vs : List V3} {w : V3} (hw : w ∈ vs) :
    ∀ acc : V3 × V3,
      (foldMinMax vs acc).1.x ≤ w.x ∧ (foldMinMax vs acc).1.y ≤ w.y ∧
      (foldMinMax vs acc).1.z ≤ w.z ∧
      w.x ≤ (foldMinMax vs acc).2.x ∧ w.y ≤ (foldMinMax vs acc).2.y ∧
      w.z ≤ (foldMinMax vs acc).2.z := by
  induction vs with
  | nil => cases hw
  | cons u vs ih =>
    intro acc
    rcases List.mem_cons.mp hw with h | h
    · subst h
      have h1 := extremaVertex_bounds w acc.1 acc.2
      have h2 := foldMinMax_le vs (extremaVertex w acc.1 acc.2)
      simp only [foldMinMax, List.foldl_cons] at h2 ⊢
      refine ⟨?_, ?_, ?_, ?_, ?_, ?_⟩ <;> linarith [h1.2.2.2.2.2.2.1,
        h1.2.2.2.2.2.2.2.1, h1.2.2.2.2.2.2.2.2.1, h1.2.2.2.2.2.2.2.2.2.1,
        h1.2.2.2.2.2.2.2.2.2.2.1, h1.2.2.2.2.2.2.2.2.2.2.2, h2.1, h2.2.1,
        h2.2.2.1, h2.2.2.2.1, h2.2.2.2.2.1, h2.2.2.2.2.2]
    · have h2 := ih h (extremaVertex u acc.1 acc.2)
      simp only [foldMinMax, List.foldl_cons] at h2 ⊢
      exact h2

/-- `Bounds::new` as the vertex-stream extrema fold. -/
theorem boundsNew_eq (l : List Prim) (v : List PrimVertex) :
    Bounds.new l v =
      ⟨(foldMinMax (vertsOf l v)
          (⟨f32Max, f32Max, f32Max⟩, ⟨-f32Max, -f32Max, -f32Max⟩)).1, 0,
        (foldMinMax (vertsOf l v)
          (⟨f32Max, f32Max, f32Max⟩, ⟨-f32Max, -f32Max, -f32Max⟩)).2, 0⟩ := by
  simp only [Bounds.new]
  have key : ∀ (l : List Prim) (acc : V3 × V3),
      l.foldl (fun acc p =>
        extremaVertex (vpos v p.ic)
          (extremaVertex (vpos v p.ib)
            (extremaVertex (vpos v p.ia) acc.1 acc.2).1
            (extremaVertex (vpos v p.ia) acc.1 acc.2).2).1
          (extremaVertex (vpos v p.ib)
            (extremaVertex (vpos v p.ia) acc.1 acc.2).1
            (extremaVertex (vpos v p.ia) acc.1 acc.2).2).2) acc =
      foldMinMax (vertsOf l v) acc := by
    intro l
    induction l with
    | nil => intro acc; simp [foldMinMax, vertsOf]
    | cons p l ih =>
      intro acc
      simp only [List.foldl_cons, vertsOf, List.flatMap_cons, foldMinMax,
        List.foldl_append, List.foldl_nil] at ih ⊢
      rw [ih]
  rw [key]

/-- Every vertex of every primitive in the list lies inside
`Bounds::new` of that list. -/
theorem boundsNew_mem {l : List Prim} {v : List PrimVertex} {p : Prim}
    (hp : p ∈ l) :
    (Bounds.new l v).contains (vpos v p.ia) = true ∧
    (Bounds.new l v).contains (vpos v p.ib) = true ∧
    (Bounds.new l v).contains (vpos v p.ic) = true := by
  have ha : vpos v p.ia ∈ vertsOf l v := by
    simp [vertsOf]; exact ⟨p, hp, Or.inl rfl⟩
  have hb : vpos v p.ib ∈ vertsOf l v := by
    simp [vertsOf]; exact ⟨p, hp, Or.inr (Or.inl rfl)⟩
  have hc : vpos v p.ic ∈ vertsOf l v := by
    simp [vertsOf]; exact ⟨p, hp, Or.inr (Or.inr rfl)⟩
  rw [boundsNew_eq]
  refine ⟨?_, ?_, ?_⟩ <;> rw [contains_true_iff] <;> dsimp only
  · obtain ⟨q1, q2, q3, q4, q5, q6⟩ := foldMinMax_mem ha
      (⟨f32Max, f32Max, f32Max⟩, ⟨-f32Max, -f32Max, -f32Max⟩)
    exact ⟨q1, q4, q2, q5, q3, q6⟩
  · obtain ⟨q1, q2, q3, q4, q5, q6⟩ := foldMinMax_mem hb
      (⟨f32Max, f32Max, f32Max⟩, ⟨-f32Max, -f32Max, -f32Max⟩)
    exact ⟨q1, q4, q2, q5, q3, q6⟩
  · obtain ⟨q1, q2, q3, q4, q5, q6⟩ := foldMinMax_mem hc
      (⟨f32Max, f32Max, f32Max⟩, ⟨-f32Max, -f32Max, -f32Max⟩)
    exact ⟨q1, q4, q2, q5, q3, q6⟩

/-- A point of the parent box missed by the first candidate half-box
lies in the second candidate half-box. -/
theorem splitBoxes_cover {eps : ℚ} {b f s : Bounds} {c : V3}
    (h : splitBoxes eps b = some (f, s)) (hc : b.contains c = true)
    (hf : f.contains c = false) : s.contains c = true := by
  have hf' : ¬ (f.contains c = true) := by simp [hf]
  rw [contains_true_iff] at hc ⊢
  rw [contains_true_iff] at hf'
  obtain ⟨c1, c2, c3, c4, c5, c6⟩ := hc
  unfold splitBoxes at h
  dsimp only at h
  split_ifs at h <;> cases h <;> dsimp only at hf' ⊢
  · exact ⟨(not_le.mp (fun hle => hf' ⟨c1, hle, c3, c4, c5, c6⟩)).le,
      c2, c3, c4, c5, c6⟩
  · exact ⟨c1, c2, (not_le.mp (fun hle => hf' ⟨c1, c2, c3, hle, c5, c6⟩)).le,
      c4, c5, c6⟩
  · exact ⟨c1, c2, c3, c4,
      (not_le.mp (fun hle => hf' ⟨c1, c2, c3, c4, c5, hle⟩)).le, c6⟩

/-- A box containing a triangle's three vertices contains its centroid
(mean of the edge midpoints, computed exactly). -/
theorem contains_centroid {b : Bounds} {prims : List Prim}
    {vertices : List PrimVertex} {i : ℕ}
    (ha : b.contains (vpos vertices (prims.getD i default).ia) = true)
    (hb : b.contains (vpos vertices (prims.getD i default).ib) = true)
    (hc : b.contains (vpos vertices (prims.getD i default).ic) = true) :
    b.contains (centroid prims vertices i) = true := by
  rw [contains_true_iff] at ha hb hc ⊢
  obtain ⟨a1, a2, a3, a4, a5, a6⟩ := ha
  obtain ⟨b1, b2, b3, b4, b5, b6⟩ := hb
  obtain ⟨d1, d2, d3, d4, d5, d6⟩ := hc
  simp only [centroid, V3.add, V3.scale]
  refine ⟨?_, ?_, ?_, ?_, ?_, ?_⟩ <;> dsimp only <;> linarith

/-- Every leaf of a successful `split` run contains the centroids of all
its items, provided the initial node did. -/
theorem splitFuel_centroids {eps : ℚ} {prims : List Prim}
    {vertices : List PrimVertex} {fuel : ℕ} {b : Bounds} {itms : List ℕ}
    {t : Aabb}
    (h : splitFuel eps prims vertices fuel (.mk none none b itms) = some t)
    (pre : ∀ i ∈ itms, b.contains (centroid prims vertices i) = true) :
    ∀ L ∈ leavesOf t, ∀ i ∈ L.items,
      L.bounds.contains (centroid prims vertices i) = true := by
  refine splitFuel_induction eps prims vertices
    (fun b itms t =>
      (∀ i ∈ itms, b.contains (centroid prims vertices i) = true) →
      ∀ L ∈ leavesOf t, ∀ i ∈ L.items,
        L.bounds.contains (centroid prims vertices i) = true)
    ?_ ?_ ?_ ?_ fuel b itms t h pre
  · intro b itms hpre L hL i hi
    simp only [leavesOf, List.mem_singleton] at hL
    subst hL
    simp only [Aabb.items] at hi
    simpa [Aabb.bounds] using hpre i hi
  · intro b itms fstB sndB t hsb hp1 ih hpre
    apply ih
    intro i hi
    have hnil : itms.filter
        (fun idx => fstB.contains (centroid prims vertices idx)) = [] := by
      simpa [List.partition_eq_filter_filter] using (List.isEmpty_iff).mp hp1
    have hPfalse := List.filter_eq_nil_iff.mp hnil i hi
    simp only [Bool.not_eq_true] at hPfalse
    exact splitBoxes_cover hsb (hpre i hi) hPfalse
  · intro b itms fstB sndB t hsb hp1 hp2 ih hpre
    apply ih
    intro i hi
    have hnil : itms.filter
        (fun idx => !(fstB.contains (centroid prims vertices idx))) = [] := by
      simpa [List.partition_eq_filter_filter] using (List.isEmpty_iff).mp hp2
    have hP := List.filter_eq_nil_iff.mp hnil i hi
    simpa using hP
  · intro b itms fstB sndB fstC sndC h2 hsb hp1 hp2 ihf ihs hpre L hL i hi
    have hL' : L ∈ leavesOf fstC ++ leavesOf sndC := by
      simpa [leavesOf] using hL
    rcases List.mem_append.mp hL' with hLf | hLs
    · refine ihf ?_ L hLf i hi
      intro j hj
      have hmm := boundsNew_mem (v := vertices)
        (List.mem_map_of_mem (prims.getD · default) hj)
      exact contains_centroid hmm.1 hmm.2.1 hmm.2.2
    · refine ihs ?_ L hLs i hi
      intro j hj
      have hmm := boundsNew_mem (v := vertices)
        (List.mem_map_of_mem (prims.getD · default) hj)
      exact contains_centroid hmm.1 hmm.2.1 hmm.2.2

theorem halvings_exists {eps : ℚ} (heps : 0 < eps) (d : ℚ) :
    ∃ n, d < 2 ^ n * (eps * (1/2)) := by
  obtain ⟨n, hn⟩ := exists_nat_gt (d / (eps * (1/2)))
  refine ⟨n, ?_⟩
  have he : 0 < eps * (1/2) := by linarith
  have hpow : (n : ℚ) < 2 ^ n := by exact_mod_cast Nat.lt_two_pow n
  have := (div_lt_iff he).mp (lt_trans hn hpow)
  linarith

theorem halvings_spec {eps : ℚ} (heps : 0 < eps) (d : ℚ) :
    d < 2 ^ halvings eps d * (eps * (1/2)) := by
  rw [halvings, dif_pos heps]
  exact Nat.find_spec (halvings_exists heps d)

theorem halvings_min {eps : ℚ} (heps : 0 < eps) {d : ℚ} {n : ℕ}
    (h : d < 2 ^ n * (eps * (1/2))) : halvings eps d ≤ n := by
  rw [halvings, dif_pos heps]
  apply Nat.find_le
  exact h

theorem halvings_half_lt {eps : ℚ} (heps : 0 < eps) {d : ℚ}
    (hd : eps * (1/2) ≤ d) :
    halvings eps (d * (1/2)) < halvings eps d := by
  have hn0 : halvings eps d ≠ 0 := by
    intro h0
    have := halvings_spec heps d
    rw [h0] at this
    simp at this
    linarith
  have hspec := halvings_spec heps d
  have hhalf : d * (1/2) < 2 ^ (halvings eps d - 1) * (eps * (1/2)) := by
    have hpow : (2 : ℚ) ^ halvings eps d = 2 * 2 ^ (halvings eps d - 1) := by
      rw [← pow_succ']
      congr 1
      omega
    rw [hpow] at hspec
    linarith
  have := halvings_min heps hhalf
  omega

theorem splitFuel_mono {eps : ℚ} {prims : List Prim}
    {vertices : List PrimVertex} :
    ∀ {fuel fuel' : ℕ} {a t : Aabb}, fuel ≤ fuel' →
      splitFuel eps prims vertices fuel a = some t →
      splitFuel eps prims vertices fuel' a = some t := by
  intro fuel
  induction fuel with
  | zero => intro fuel' a t _ h; simp [splitFuel] at h
  | succ fuel ih =>
    intro fuel' a t hle h
    obtain ⟨fuel'', rfl⟩ : ∃ k, fuel' = k + 1 := ⟨fuel' - 1, by omega⟩
    have hle'' : fuel ≤ fuel'' := by omega
    cases a with
    | mk f s b itms =>
      simp only [splitFuel, Aabb.items, Aabb.fst, Aabb.snd, Aabb.bounds]
        at h ⊢
      by_cases h2 : itms.length ≤ 2
      · rw [if_pos h2] at h ⊢; exact h
      · rw [if_neg h2] at h ⊢
        cases hb : splitBoxes eps b with
        | none => simp only [hb] at h ⊢; exact h
        | some bs =>
          obtain ⟨fstB, sndB⟩ := bs
          simp only [hb] at h ⊢
          by_cases hp1 : (itms.partition
              (fun idx => fstB.contains (centroid prims vertices idx))).1.isEmpty = true
          · rw [if_pos hp1] at h ⊢; exact ih hle'' h
          · rw [if_neg hp1] at h ⊢
            by_cases hp2 : (itms.partition
                (fun idx => fstB.contains (centroid prims vertices idx))).2.isEmpty = true
            · rw [if_pos hp2] at h ⊢; exact ih hle'' h
            · rw [if_neg hp2] at h ⊢
              cases hf : splitFuel eps prims vertices fuel
                  (.mk none none
                    (Bounds.new
                      ((itms.partition
                        (fun idx => fstB.contains (centroid prims vertices idx))).1.map
                          (prims.getD · default)) vertices)
                    (itms.partition
                      (fun idx => fstB.contains (centroid prims vertices idx))).1) with
              | none => simp only [hf] at h; cases h
              | some c1 =>
                cases hs : splitFuel eps prims vertices fuel
                    (.mk none none
                      (Bounds.new
                        ((itms.partition
                          (fun idx => fstB.contains (centroid prims vertices idx))).2.map
                            (prims.getD · default)) vertices)
                      (itms.partition
                        (fun idx => fstB.contains (centroid prims vertices idx))).2) with
                | none => simp only [hf, hs] at h; cases h
                | some c2 =>
                  simp only [hf, hs] at h
                  rw [ih hle'' hf, ih hle'' hs]
                  exact h

/-- Both candidate half-boxes of a passed extent check strictly decrease
the halving measure. -/
theorem splitBoxes_hsum {eps : ℚ} {b f s : Bounds} (heps : 0 < eps)
    (h : splitBoxes eps b = some (f, s)) :
    hsum eps f < hsum eps b ∧ hsum eps s < hsum eps b := by
  unfold splitBoxes at h
  dsimp only at h
  split_ifs at h with hx hx2 hy hy2 hz2 <;> cases h
  · have hxe : eps * (1/2) ≤ b.max.x - b.min.x := by
      have := not_lt.mp hx2
      simpa [V3.sub] using this
    have hlt := halvings_half_lt heps hxe
    have e1 : b.min.x + (b.max.x - b.min.x) * (1 / 2) - b.min.x =
        (b.max.x - b.min.x) * (1 / 2) := by ring
    have e2 : b.max.x - (b.min.x + (b.max.x - b.min.x) * (1 / 2)) =
        (b.max.x - b.min.x) * (1 / 2) := by ring
    refine ⟨?_, ?_⟩
    · simp only [hsum, extents, V3.sub]
      rw [e1]
      omega
    · simp only [hsum, extents, V3.sub]
      rw [e2]
      omega
  · have hxe : eps * (1/2) ≤ b.max.y - b.min.y := by
      have := not_lt.mp hy2
      simpa [V3.sub] using this
    have hlt := halvings_half_lt heps hxe
    have e1 : b.min.y + (b.max.y - b.min.y) * (1 / 2) - b.min.y =
        (b.max.y - b.min.y) * (1 / 2) := by ring
    have e2 : b.max.y - (b.min.y + (b.max.y - b.min.y) * (1 / 2)) =
        (b.max.y - b.min.y) * (1 / 2) := by ring
    refine ⟨?_, ?_⟩
    · simp only [hsum, extents, V3.sub]
      rw [e1]
      omega
    · simp only [hsum, extents, V3.sub]
      rw [e2]
      omega
  · have hxe : eps * (1/2) ≤ b.max.z - b.min.z := by
      have := not_lt.mp hz2
      simpa [V3.sub] using this
    have hlt := halvings_half_lt heps hxe
    have e1 : b.min.z + (b.max.z - b.min.z) * (1 / 2) - b.min.z =
        (b.max.z - b.min.z) * (1 / 2) := by ring
    have e2 : b.max.z - (b.min.z + (b.max.z - b.min.z) * (1 / 2)) =
        (b.max.z - b.min.z) * (1 / 2) := by ring
    refine ⟨?_, ?_⟩
    · simp only [hsum, extents, V3.sub]
      rw [e1]
      omega
    · simp only [hsum, extents, V3.sub]
      rw [e2]
      omega

/-- Termination of `Aabb::split` for positive `eps`: some fuel always
suffices.  The measure is lexicographic: the item count strictly drops
on every successful split, and the remaining-halvings measure `hsum`
strictly drops on every degenerate-split collapse. -/
theorem splitFuel_total {eps : ℚ} (heps : 0 < eps) (prims : List Prim)
    (vertices : List PrimVertex) :
    ∀ (b : Bounds) (itms : List ℕ),
      ∃ fuel t,
        splitFuel eps prims vertices fuel (.mk none none b itms) = some t := by
  suffices key : ∀ (n : ℕ) (itms : List ℕ), itms.length ≤ n →
      ∀ (m : ℕ) (b : Bounds), hsum eps b ≤ m →
      ∃ fuel t,
        splitFuel eps prims vertices fuel (.mk none none b itms) = some t by
    intro b itms
    exact key itms.length itms le_rfl (hsum eps b) b le_rfl
  intro n
  induction n with
  | zero =>
    intro itms hlen m b _
    refine ⟨1, .mk none none b itms, ?_⟩
    have h2 : itms.length ≤ 2 := by omega
    simp [splitFuel, Aabb.items, h2]
  | succ n ihn =>
    intro itms hlen m
    induction m using Nat.strong_induction_on with
    | _ m ihm =>
      intro b hbm
      by_cases h2 : itms.length ≤ 2
      · refine ⟨1, .mk none none b itms, ?_⟩
        simp [splitFuel, Aabb.items, h2]
      · cases hb : splitBoxes eps b with
        | none =>
          refine ⟨1, .mk none none b itms, ?_⟩
          simp [splitFuel, Aabb.items, Aabb.bounds, h2, hb]
        | some bs =>
          obtain ⟨fstB, sndB⟩ := bs
          by_cases hp1 : (itms.partition
              (fun idx => fstB.contains (centroid prims vertices idx))).1.isEmpty = true
          · have hlt := (splitBoxes_hsum heps hb).2
            obtain ⟨fuel, t, hft⟩ := ihm (hsum eps sndB) (by omega) sndB le_rfl
            refine ⟨fuel + 1, t, ?_⟩
            simp only [splitFuel, Aabb.items, Aabb.fst, Aabb.snd, Aabb.bounds]
            rw [if_neg h2]
            simp only [hb]
            rw [if_pos hp1]
            exact hft
          · by_cases hp2 : (itms.partition
                (fun idx => fstB.contains (centroid prims vertices idx))).2.isEmpty = true
            · have hlt := (splitBoxes_hsum heps hb).1
              obtain ⟨fuel, t, hft⟩ := ihm (hsum eps fstB) (by omega) fstB le_rfl
              refine ⟨fuel + 1, t, ?_⟩
              simp only [splitFuel, Aabb.items, Aabb.fst, Aabb.snd, Aabb.bounds]
              rw [if_neg h2]
              simp only [hb]
              rw [if_neg hp1, if_pos hp2]
              exact hft
            · have hsumlen : (itms.partition
                  (fun idx => fstB.contains (centroid prims vertices idx))).1.length +
                  (itms.partition
                    (fun idx => fstB.contains (centroid prims vertices idx))).2.length =
                  itms.length := by
                simp only [List.partition_eq_filter_filter]
                rw [← List.length_append]
                exact (List.filter_append_perm _ itms).length_eq
              have hp1ne : (itms.partition
                  (fun idx => fstB.contains (centroid prims vertices idx))).1 ≠ [] := by
                simpa [List.isEmpty_iff] using hp1
              have hp2ne : (itms.partition
                  (fun idx => fstB.contains (centroid prims vertices idx))).2 ≠ [] := by
                simpa [List.isEmpty_iff] using hp2
              have hpos1 := List.length_pos.mpr hp1ne
              have hpos2 := List.length_pos.mpr hp2ne
              obtain ⟨f1, t1, h1⟩ := ihn
                (itms.partition
                  (fun idx => fstB.contains (centroid prims vertices idx))).1
                (by omega)
                (hsum eps (Bounds.new
                  ((itms.partition
                    (fun idx => fstB.contains (centroid prims vertices idx))).1.map
                      (prims.getD · default)) vertices))
                (Bounds.new
                  ((itms.partition
                    (fun idx => fstB.contains (centroid prims vertices idx))).1.map
                      (prims.getD · default)) vertices)
                le_rfl
              obtain ⟨f2, t2, hh2⟩ := ihn
                (itms.partition
                  (fun idx => fstB.contains (centroid prims vertices idx))).2
                (by omega)
                (hsum eps (Bounds.new
                  ((itms.partition
                    (fun idx => fstB.contains (centroid prims vertices idx))).2.map
                      (prims.getD · default)) vertices))
                (Bounds.new
                  ((itms.partition
                    (fun idx => fstB.contains (centroid prims vertices idx))).2.map
                      (prims.getD · default)) vertices)
                le_rfl
              refine ⟨max f1 f2 + 1, .mk (some t1) (some t2) b [], ?_⟩
              simp only [splitFuel, Aabb.items, Aabb.fst, Aabb.snd, Aabb.bounds]
              rw [if_neg h2]
              simp only [hb]
              rw [if_neg hp1, if_neg hp2]
              rw [splitFuel_mono (le_max_left f1 f2) h1,
                splitFuel_mono (le_max_right f1 f2) hh2]

/-! ## Claim theorems -/

/-- C1: for every scene with a non-empty primitive list and any epsilon,
flattening the tree built from that scene yields at least one node
record, and the flat item-index array is a permutation (as a multiset)
of `0..primitive_count`: `Aabb::split` partitions a node's item list
exactly between the two children it attaches (clearing the parent), and
`BvhData::new` emits each node's item list exactly once. -/
theorem c1_flatten_nodes_and_permutation (eps : ℚ) (prims : List Prim)
    (vertices : List PrimVertex) (fuel : ℕ) (t : Aabb)
    (hne : prims ≠ [])
    (h : fromSceneFuel fuel eps (.active prims vertices) = some t) :
    1 ≤ (BvhData.new t).uniforms.length ∧
    ((BvhData.new t).indices : Multiset ℕ) =
      (List.range prims.length : Multiset ℕ) := by
  have hsplit : splitFuel eps prims vertices fuel
      (.mk none none (Bounds.new prims vertices)
        (List.range prims.length)) = some t := by
    simpa [fromSceneFuel, rootAabb] using h
  constructor
  · rw [BvhData_new_uniforms, flatNodes_length]
    exact nodeCount_pos t
  · rw [BvhData_new_indices]
    exact Multiset.coe_eq_coe.mpr (splitFuel_perm _ _ _ _ _ _ _ hsplit)

/-- Witness for C1 on the four-triangle scene. -/
theorem c1_witness :
    pC4 ≠ [] ∧
    (1 ≤ (BvhData.new treeC4).uniforms.length ∧
      ((BvhData.new treeC4).indices : Multiset ℕ) =
        (List.range pC4.length : Multiset ℕ)) :=
  ⟨by decide,
    c1_flatten_nodes_and_permutation (1/50) pC4 vC4 10 treeC4 (by decide) (by rfl)⟩

/-- C2: in every flattened tree built from a scene with a non-empty
primitive list, every leaf record has `item_count > 0` and both child
fields equal to the sentinel `0`, and every internal record has
`item_count == 0` and both child fields referencing valid node indices
(less than the number of emitted nodes). -/
theorem c2_leaf_internal_dichotomy (eps : ℚ) (prims : List Prim)
    (vertices : List PrimVertex) (fuel : ℕ) (t : Aabb)
    (hne : prims ≠ [])
    (h : fromSceneFuel fuel eps (.active prims vertices) = some t) :
    ∀ k, k < (BvhData.new t).uniforms.length →
      (0 < ((BvhData.new t).uniforms.getD k default).item_count ∧
        ((BvhData.new t).uniforms.getD k default).fst = 0 ∧
        ((BvhData.new t).uniforms.getD k default).snd = 0) ∨
      (((BvhData.new t).uniforms.getD k default).item_count = 0 ∧
        ((BvhData.new t).uniforms.getD k default).fst <
          (BvhData.new t).uniforms.length ∧
        ((BvhData.new t).uniforms.getD k default).snd <
          (BvhData.new t).uniforms.length) := by
  have hsplit : splitFuel eps prims vertices fuel
      (.mk none none (Bounds.new prims vertices)
        (List.range prims.length)) = some t := by
    simpa [fromSceneFuel, rootAabb] using h
  have hrne : List.range prims.length ≠ [] := by
    simp only [ne_eq, List.range_eq_nil]
    intro h0
    exact hne (List.length_eq_zero.mp h0)
  have hgood : Good t := splitFuel_good hrne hsplit
  intro k hk
  rw [BvhData_new_uniforms] at hk ⊢
  have hs := flatNodes_struct hgood 0 0 k hk
  rcases hs with hcase | hcase
  · left; exact hcase
  · right
    rw [flatNodes_length]
    exact ⟨hcase.1, by omega, by omega⟩

/-- Witness for C2 on the four-triangle scene. -/
theorem c2_witness :
    pC4 ≠ [] ∧
    (∀ k, k < (BvhData.new treeC4).uniforms.length →
      (0 < ((BvhData.new treeC4).uniforms.getD k default).item_count ∧
        ((BvhData.new treeC4).uniforms.getD k default).fst = 0 ∧
        ((BvhData.new treeC4).uniforms.getD k default).snd = 0) ∨
      (((BvhData.new treeC4).uniforms.getD k default).item_count = 0 ∧
        ((BvhData.new treeC4).uniforms.getD k default).fst <
          (BvhData.new treeC4).uniforms.length ∧
        ((BvhData.new treeC4).uniforms.getD k default).snd <
          (BvhData.new treeC4).uniforms.length)) :=
  ⟨by decide,
    c2_leaf_internal_dichotomy (1/50) pC4 vC4 10 treeC4 (by decide) (by rfl)⟩

/-- C3: for every primitive and vertex list, every starting box and item
list, and every epsilon greater than zero, the recursive `Aabb::split`
procedure terminates: some finite fuel suffices, because each recursive
call either strictly decreases the item count or halves the longest box
extent, and the `eps * 0.5` floor bounds the number of halvings. -/
theorem c3_split_terminates (eps : ℚ) (prims : List Prim)
    (vertices : List PrimVertex) (b : Bounds) (itms : List ℕ)
    (heps : 0 < eps) :
    ∃ fuel t,
      splitFuel eps prims vertices fuel (.mk none none b itms) = some t :=
  splitFuel_total heps prims vertices b itms

/-- Witness for C3 on the degenerate scene whose centroids all fall in
one half-box (forcing the collapse-and-retry path). -/
theorem c3_witness :
    0 < (3/2 : ℚ) ∧
    ∃ fuel t,
      splitFuel (3/2) pC7 vC7 fuel
        (.mk none none (Bounds.new pC7 vC7) (List.range pC7.length)) =
        some t :=
  ⟨by norm_num,
    c3_split_terminates (3/2) pC7 vC7 (Bounds.new pC7 vC7)
      (List.range pC7.length) (by norm_num)⟩

/-- C10 (implicit): in every tree flattened by `BvhData::new` from a
built scene, each internal record's two child indices are strictly
greater than the record's own index and strictly less than the total
node count; consequently `0` (the root's index) never appears as a child
id, so the `0` child sentinel on leaves cannot collide with a genuine
child reference, and following child links strictly increases the
index. -/
theorem c10_child_indices_increase (eps : ℚ) (prims : List Prim)
    (vertices : List PrimVertex) (fuel : ℕ) (t : Aabb)
    (hne : prims ≠ [])
    (h : fromSceneFuel fuel eps (.active prims vertices) = some t) :
    ∀ k, k < (BvhData.new t).uniforms.length →
      ((BvhData.new t).uniforms.getD k default).item_count = 0 →
      (k < ((BvhData.new t).uniforms.getD k default).fst ∧
        ((BvhData.new t).uniforms.getD k default).fst <
          (BvhData.new t).uniforms.length ∧
        k < ((BvhData.new t).uniforms.getD k default).snd ∧
        ((BvhData.new t).uniforms.getD k default).snd <
          (BvhData.new t).uniforms.length ∧
        ((BvhData.new t).uniforms.getD k default).fst ≠ 0 ∧
        ((BvhData.new t).uniforms.getD k default).snd ≠ 0) := by
  have hsplit : splitFuel eps prims vertices fuel
      (.mk none none (Bounds.new prims vertices)
        (List.range prims.length)) = some t := by
    simpa [fromSceneFuel, rootAabb] using h
  have hrne : List.range prims.length ≠ [] := by
    simp only [ne_eq, List.range_eq_nil]
    intro h0
    exact hne (List.length_eq_zero.mp h0)
  have hgood : Good t := splitFuel_good hrne hsplit
  intro k hk hint
  rw [BvhData_new_uniforms] at hk hint ⊢
  have hs := flatNodes_struct hgood 0 0 k hk
  rcases hs with hcase | hcase
  · omega
  · rw [flatNodes_length]
    refine ⟨by omega, by omega, by omega, by omega, by omega, by omega⟩

/-- Witness for C10 on the four-triangle scene. -/
theorem c10_witness :
    pC4 ≠ [] ∧
    (∀ k, k < (BvhData.new treeC4).uniforms.length →
      ((BvhData.new treeC4).uniforms.getD k default).item_count = 0 →
      (k < ((BvhData.new treeC4).uniforms.getD k default).fst ∧
        ((BvhData.new treeC4).uniforms.getD k default).fst <
          (BvhData.new treeC4).uniforms.length ∧
        k < ((BvhData.new treeC4).uniforms.getD k default).snd ∧
        ((BvhData.new treeC4).uniforms.getD k default).snd <
          (BvhData.new treeC4).uniforms.length ∧
        ((BvhData.new treeC4).uniforms.getD k default).fst ≠ 0 ∧
        ((BvhData.new treeC4).uniforms.getD k default).snd ≠ 0)) :=
  ⟨by decide,
    c10_child_indices_increase (1/50) pC4 vC4 10 treeC4 (by decide) (by rfl)⟩

theorem decode_encode_bounds (b : Bounds) :
    JBounds.decode (Bounds.encode b) = .ok ⟨b.min, 0, b.max, 0⟩ := by
  cases b with
  | mk mn p0 mx p1 =>
    cases mn
    cases mx
    rfl

theorem decode_encode_uniform (u : AabbUniform) :
    JAabbUniform.decode (AabbUniform.encode u) =
      .ok ⟨u.fst, u.snd, u.item_idx, u.item_count,
        ⟨u.bounds.min, 0, u.bounds.max, 0⟩⟩ := by
  simp only [JAabbUniform.decode, AabbUniform.encode, decode_encode_bounds]

theorem decodeUniforms_encode {us : List AabbUniform}
    (hpz : ∀ u ∈ us, PadsZeroB u.bounds) :
    decodeUniforms (us.map AabbUniform.encode) = .ok us := by
  induction us with
  | nil => rfl
  | cons u us ih =>
    have hu := hpz u (List.mem_cons_self u us)
    have hrest := ih (fun v hv => hpz v (List.mem_cons_of_mem u hv))
    simp only [List.map_cons, decodeUniforms, decode_encode_uniform, hrest]
    have : (⟨u.bounds.min, 0, u.bounds.max, 0⟩ : Bounds) = u.bounds := by
      obtain ⟨h0, h1⟩ := hu
      cases hb : u.bounds with
      | mk mn p0 mx p1 =>
        rw [hb] at h0 h1
        simp at h0 h1
        simp [h0, h1]
    rw [this]

/-- Every record the flattener emits for a pads-zero tree has pads-zero
bounds. -/
theorem flatNodes_pads {a : Aabb} (hpz : PadsZero a) :
    ∀ base ibase u, u ∈ flatNodes a base ibase → PadsZeroB u.bounds := by
  induction hpz with
  | mk f s b itms hb hf hs ihf ihs =>
    intro base ibase u hu
    cases f with
    | none =>
      cases s with
      | none =>
        simp only [flatNodes, List.nil_append, List.mem_singleton] at hu
        subst hu
        exact hb
      | some cs =>
        simp only [flatNodes, List.nil_append, List.mem_cons] at hu
        rcases hu with hu | hu
        · subst hu; exact hb
        · exact ihs cs rfl _ _ _ hu
    | some cf =>
      cases s with
      | none =>
        simp only [flatNodes, List.append_nil, List.mem_cons] at hu
        rcases hu with hu | hu
        · subst hu; exact hb
        · exact ihf cf rfl _ _ _ hu
      | some cs =>
        simp only [flatNodes, List.mem_cons, List.mem_append] at hu
        rcases hu with hu | hu | hu
        · subst hu; exact hb
        · exact ihf cf rfl _ _ _ hu
        · exact ihs cs rfl _ _ _ hu

/-- C5: for every flattened tree produced by the builder, decoding its
serialized encoding reproduces the original value field-for-field:
serialization skips the two padding words, deserialization restores them
as `0`, and every `Bounds` produced by the builder has both padding
words equal to `0`, so encode followed by decode is the identity. -/
theorem c5_roundtrip (fuel : ℕ) (eps : ℚ) (scene : Scene) (t : Aabb)
    (h : fromSceneFuel fuel eps scene = some t) :
    JBvhData.decode (BvhData.encode (BvhData.new t)) =
      .ok (BvhData.new t) := by
  have hpz : PadsZero t := by
    cases scene with
    | unloaded =>
      simp only [fromSceneFuel, Option.some.injEq] at h
      subst h
      refine PadsZero.mk _ _ _ _ (boundsNew_pads [] []) ?_ ?_ <;>
        intro c hc <;> cases hc
    | active prims vertices =>
      have hsplit : splitFuel eps prims vertices fuel
          (.mk none none (Bounds.new prims vertices)
            (List.range prims.length)) = some t := by
        simpa [fromSceneFuel, rootAabb] using h
      exact splitFuel_pads (boundsNew_pads prims vertices) hsplit
  have hall : ∀ u ∈ (BvhData.new t).uniforms, PadsZeroB u.bounds := by
    intro u hu
    rw [BvhData_new_uniforms] at hu
    exact flatNodes_pads hpz 0 0 u hu
  simp only [BvhData.encode, JBvhData.decode, decodeUniforms_encode hall]

/-- Witness for C5 on the one-triangle scene. -/
theorem c5_witness :
    JBvhData.decode (BvhData.encode (BvhData.new treeC4)) =
      .ok (BvhData.new treeC4) :=
  c5_roundtrip 10 (1/50) (.active pC4 vC4) treeC4 (by rfl)

theorem decodeBounds_ok_lengths {jb : JBounds} {b : Bounds}
    (h : jb.decode = .ok b) : jb.min.length = 3 ∧ jb.max.length = 3 := by
  unfold JBounds.decode at h
  cases jb with
  | mk mn mx =>
    match mn, mx with
    | [a1, a2, a3], [b1, b2, b3] => simp
    | [a1, a2, a3], [] => simp at h
    | [a1, a2, a3], [b1] => simp at h
    | [a1, a2, a3], [b1, b2] => simp at h
    | [a1, a2, a3], (b1 :: b2 :: b3 :: b4 :: r) => simp at h
    | [], _ => simp at h
    | [a1], _ => simp at h
    | [a1, a2], _ => simp at h
    | (a1 :: a2 :: a3 :: a4 :: r), _ => simp at h

theorem decodeUniforms_error {js : List JAabbUniform}
    (hbad : ∃ u ∈ js, u.bounds.min.length ≠ 3 ∨ u.bounds.max.length ≠ 3) :
    ∃ e, decodeUniforms js = .error e := by
  induction js with
  | nil => simp at hbad
  | cons j rest ih =>
    cases hj : j.decode with
    | error e => exact ⟨e, by simp [decodeUniforms, hj]⟩
    | ok u =>
      have hb0 : ∃ b0, j.bounds.decode = .ok b0 := by
        unfold JAabbUniform.decode at hj
        cases hjb : j.bounds.decode with
        | error e => rw [hjb] at hj; cases hj
        | ok b0 => exact ⟨b0, rfl⟩
      obtain ⟨b0, hjb⟩ := hb0
      have hlen := decodeBounds_ok_lengths hjb
      obtain ⟨v, hv, hvbad⟩ := hbad
      rcases List.mem_cons.mp hv with rfl | hv'
      · omega
      · obtain ⟨e, he⟩ := ih ⟨v, hv', hvbad⟩
        refine ⟨e, ?_⟩
        simp [decodeUniforms, hj, he]

/-- C6: for every serialized blob containing a `Bounds` whose `min` or
`max` array does not have exactly 3 elements, the decode step
(`BvhIntrs::prepare`) returns an error, and on that error path the
previously loaded data is left unchanged — corrupt or partially-decoded
data is never substituted for a valid tree. -/
theorem c6_decode_error_preserves_loaded (j : JBvhData)
    (loaded : Option BvhData)
    (hbad : ∃ u ∈ j.uniforms,
      u.bounds.min.length ≠ 3 ∨ u.bounds.max.length ≠ 3) :
    ∃ e, JBvhData.decode j = .error e ∧
      prepare j loaded = (.error e, loaded) := by
  obtain ⟨e, he⟩ := decodeUniforms_error hbad
  refine ⟨e, ?_, ?_⟩
  · simp [JBvhData.decode, he]
  · simp [prepare, JBvhData.decode, he]

/-- Witness for C6: a blob whose single record carries a 2-element `min`
array, decoded against an already-loaded empty tree. -/
theorem c6_witness :
    (∃ u ∈ (⟨[⟨0, 0, 0, 0, ⟨[1, 2], [1, 2, 3]⟩⟩], []⟩ : JBvhData).uniforms,
      u.bounds.min.length ≠ 3 ∨ u.bounds.max.length ≠ 3) ∧
    ∃ e, JBvhData.decode ⟨[⟨0, 0, 0, 0, ⟨[1, 2], [1, 2, 3]⟩⟩], []⟩ =
        .error e ∧
      prepare ⟨[⟨0, 0, 0, 0, ⟨[1, 2], [1, 2, 3]⟩⟩], []⟩ (some ⟨[], []⟩) =
        (.error e, some ⟨[], []⟩) :=
  ⟨⟨⟨0, 0, 0, 0, ⟨[1, 2], [1, 2, 3]⟩⟩, List.mem_cons_self _ _,
      Or.inl (by decide)⟩,
    c6_decode_error_preserves_loaded _ _
      ⟨⟨0, 0, 0, 0, ⟨[1, 2], [1, 2, 3]⟩⟩, List.mem_cons_self _ _,
        Or.inl (by decide)⟩⟩

/-- C7 counterexample: on the three-triangle scene `pC7`/`vC7` with
`eps = 3/2`, the builder takes the degenerate-split collapse path and
produces a single leaf whose bounds start at `x = 1/2`, while triangle 0
of that leaf has a vertex at `x = 0`: the leaf's bounds do not contain
every vertex of its primitives, not even inflated by `1/4` (far beyond
any floating-point epsilon), refuting the claim as stated. -/
theorem c7_counterexample :
    splitFuel (3/2) pC7 vC7 10 (rootAabb pC7 vC7) = some aabbC7 ∧
    leavesOf aabbC7 = [aabbC7] ∧
    aabbC7.items = [0, 1, 2] ∧
    vpos vC7 (pC7.getD 0 default).ia = ⟨0, 0, 0⟩ ∧
    aabbC7.bounds.contains (vpos vC7 (pC7.getD 0 default).ia) = false ∧
    (vpos vC7 (pC7.getD 0 default).ia).x + 1/4 < aabbC7.bounds.min.x := by
  refine ⟨?_, rfl, rfl, rfl, ?_, ?_⟩
  · norm_num [splitFuel, rootAabb, Bounds.new, pC7, vC7, extremaVertex, vpos,
      f32Max, splitBoxes, V3.sub, Bounds.contains, centroid, V3.add, V3.scale,
      Aabb.items, Aabb.fst, Aabb.snd, Aabb.bounds, aabbC7,
      (show List.range 3 = [0, 1, 2] from rfl)]
  · norm_num [aabbC7, Bounds.contains, vpos, vC7, pC7, Aabb.bounds]
  · norm_num [aabbC7, vpos, vC7, pC7, Aabb.bounds]

/-- C7 amended: in the built tree, every leaf node's bounds contain the
centroid of every primitive assigned to that leaf (exactly, in the
exact-arithmetic model) — including leaves reached through the
degenerate-split path; vertex containment, as originally claimed, holds
only for leaves whose bounds were never collapsed. -/
theorem c7_amended_leaf_centroids (eps : ℚ) (prims : List Prim)
    (vertices : List PrimVertex) (fuel : ℕ) (t : Aabb)
    (h : fromSceneFuel fuel eps (.active prims vertices) = some t) :
    ∀ L ∈ leavesOf t, ∀ i ∈ L.items,
      L.bounds.contains (centroid prims vertices i) = true := by
  have hsplit : splitFuel eps prims vertices fuel
      (.mk none none (Bounds.new prims vertices)
        (List.range prims.length)) = some t := by
    simpa [fromSceneFuel, rootAabb] using h
  apply splitFuel_centroids hsplit
  intro i hi
  have hlt : i < prims.length := List.mem_range.mp hi
  have hmem : prims.getD i default ∈ prims := by
    rw [List.getD_eq_getElem _ _ hlt]
    exact List.getElem_mem hlt
  have hmm := boundsNew_mem (v := vertices) hmem
  exact contains_centroid hmm.1 hmm.2.1 hmm.2.2

/-- Witness for the amended C7 on the one-triangle scene: its single
leaf is the root itself, holding item `0`, whose centroid the leaf
bounds contain. -/
theorem c7_amended_witness :
    treeC4 ∈ leavesOf treeC4 ∧ (0 : ℕ) ∈ treeC4.items ∧
    treeC4.bounds.contains (centroid pC4 vC4 0) = true :=
  ⟨List.mem_singleton.mpr rfl, List.mem_singleton.mpr rfl,
    c7_amended_leaf_centroids (1/50) pC4 vC4 10 treeC4 (by rfl) treeC4
      (List.mem_singleton.mpr rfl) 0 (List.mem_singleton.mpr rfl)⟩

/-- C9 counterexample: the claim reads the empty-input sentinel as
`min = +∞` on every axis; in an ordered-field model, being `+∞` means
being an upper bound of every scalar, which the actual initializer
(`f32::MAX`, a finite value) is not. -/
theorem c9_counterexample :
    ¬ (∀ q : ℚ, q ≤ (Bounds.new [] []).min.x) := by
  intro hall
  have h1 : (Bounds.new [] []).min.x = f32Max := rfl
  have h2 := hall (f32Max + 1)
  rw [h1] at h2
  linarith

/-- C9 amended: the bounding-box accumulator applied to zero primitives
returns the inverted sentinel box with `min = f32::MAX` (the largest
finite `f32`) on every axis and `max = -f32::MAX` on every axis, and
`Aabb::from_scene_unloaded` wraps exactly that box in a single
placeholder node holding item `0`. -/
theorem c9_amended :
    (∀ v : List PrimVertex, Bounds.new [] v =
      ⟨⟨f32Max, f32Max, f32Max⟩, 0, ⟨-f32Max, -f32Max, -f32Max⟩, 0⟩) ∧
    fromSceneUnloaded = .mk none none (Bounds.new [] []) [0] :=
  ⟨fun _ => rfl, rfl⟩

set_option maxHeartbeats 4000000 in
/-- C4 (failing input): on the one-triangle scene, with the same ray and
the same excluded primitive, the brute-force strategy reports the
triangle hit at distance `5`, while the BVH traversal reports the no-hit
sentinel: the GPU primitives buffer is `[null, triangle]`
(`src/lib/scene/mod.rs` prepends the null primitive), but the flat
item-index array stores unshifted CPU indices, so the leaf loop reads
`primitives[0]` — the degenerate null primitive — instead of the
triangle, and the real triangle at GPU index `1` is never tested.  The
two strategies' results differ, refuting the equivalence claim on the
code. -/
theorem c4_strategies_diverge :
    fromSceneFuel 10 (1/50) (.active pC4 vC4) = some treeC4 ∧
    basicIntrs cfgC4 (gpuPrims pC4) vC4 (fun q => q) rayC4 nullPrim =
      ⟨tgC4, 5⟩ ∧
    bvhIntrs cfgC4 (1/50) (gpuPrims pC4) vC4 (BvhData.new treeC4) rayC4
      nullPrim 8 = ⟨nullPrim, 1001⟩ ∧
    (⟨tgC4, 5⟩ : Intrs) ≠ ⟨nullPrim, 1001⟩ := by
  refine ⟨by rfl, ?_, ?_, ?_⟩
  · norm_num [basicIntrs, cfgC4, gpuPrims, pC4, vC4, rayC4, nullPrim, tgC4,
      Prim.toGpu, intrs_tri, intrs_empty, intrs_sphere, vpos, V3.sub, V3.add,
      V3.cross, V3.dot, V3.scale,
      (show List.range 2 = [0, 1] from rfl)]
  · norm_num [bvhIntrs, intrsLoop, collides, intrs_bvh, BvhData.new,
      intoAabbUniform, treeC4, fromSceneFuel, splitFuel, rootAabb, Bounds.new,
      extremaVertex, f32Max, INF_POS, Aabb.items, Aabb.fst, Aabb.snd,
      Aabb.bounds, cfgC4, gpuPrims, pC4, vC4, rayC4, nullPrim, tgC4,
      Prim.toGpu, intrs_tri, intrs_empty, vpos, V3.sub, V3.add, V3.cross,
      V3.dot, V3.scale, (show List.range 1 = [0] from rfl)]
  · intro h
    have := congrArg (fun i => i.prim.b) h
    simp [tgC4, nullPrim] at this

set_option maxHeartbeats 4000000 in
/-- C8 (failing input): `intrs_bvh` receives the excluded primitive but
never reads it.  On a leaf whose single index slot points at the real
triangle, with that very triangle passed as the excluded primitive, both
the leaf routine and the full traversal report the excluded primitive as
the nearest hit at distance `5`, strictly inside the trace window —
refuting the claim that the excluded primitive is never ray-tested or
reported. -/
theorem c8_excluded_reported :
    intrs_bvh cfgC4 (gpuPrims pC4) vC4 [1] aabbUC8 rayC4 tgC4 =
      ⟨tgC4, 5⟩ ∧
    bvhIntrs cfgC4 (1/50) (gpuPrims pC4) vC4 ⟨[aabbUC8], [1]⟩ rayC4 tgC4 8 =
      ⟨tgC4, 5⟩ ∧
    cfgC4.t_min < 5 ∧ (5 : ℚ) < cfgC4.t_max := by
  refine ⟨?_, ?_, by norm_num [cfgC4], by norm_num [cfgC4]⟩
  · norm_num [intrs_bvh, aabbUC8, Bounds.new, extremaVertex, f32Max,
      cfgC4, gpuPrims, pC4, vC4, rayC4, nullPrim, tgC4, Prim.toGpu,
      intrs_tri, intrs_empty, vpos, V3.sub, V3.add, V3.cross, V3.dot,
      V3.scale, (show List.range 1 = [0] from rfl)]
  · norm_num [bvhIntrs, intrsLoop, collides, intrs_bvh, aabbUC8, Bounds.new,
      extremaVertex, f32Max, INF_POS, cfgC4, gpuPrims, pC4, vC4, rayC4,
      nullPrim, tgC4, Prim.toGpu, intrs_tri, intrs_empty, vpos, V3.sub,
      V3.add, V3.cross, V3.dot, V3.scale,
      (show List.range 1 = [0] from rfl)]

end RtRs
